import Mathlib

/-!
Shallow embedding of the `facto` integer-factorization library
(trial division, binary GCD, Newton integer square root, Miller–Rabin,
Lucas primality test, Pollard's Rho with Brent cycle detection, and the
certified factorization driver with Lucas certificates), together with
proofs and refutations of the specification's claims.

Machine integers are modelled as `Nat`.  None of the embedded operations
on the verified paths can overflow a `u64`/`u128` (all intermediate values
are bounded by the input or reduced mod `n`), so `Nat` arithmetic agrees
with the source's fixed-width arithmetic on those paths.

Montgomery-form modular arithmetic comes from the external `redc` crate,
which the specification treats as a black box.  Modelled from the spec:
a field for modulus `n` with `wrap x = x % n`, `redc` of a double-width
product `= (· % n)`, `pow b e = b ^ e % n` and `to_normal = id` — i.e. the
Montgomery representation is identified with the residue it denotes
(the code only ever compares Montgomery values for equality and converts
them back with `to_normal`, so this identification is sound).

Loops whose termination is not structural are given an explicit `fuel`
argument; `RunError.outOfFuel` marks fuel exhaustion (a run that has not
finished yet) and `RunError.panicked` marks a Rust `panic!` / `unwrap`
failure.  Every function is computable, so witnesses evaluate by `decide`.
-/

set_option maxRecDepth 4000
set_option exponentiation.threshold 2000000

/-- Result type for fallible runs: `outOfFuel` means the fuel budget was
exhausted before the loop finished, `panicked` models a Rust panic. -/
inductive RunError where
  | outOfFuel
  | panicked
deriving DecidableEq, Repr

/-- Number of trailing zero bits, with fuel (structural recursion).
For `n = 0` the fuel runs out and the result is the fuel bound; all call
sites use it only on positive numbers. -/
def tzF : Nat → Nat → Nat
  | 0, _ => 0
  | f + 1, n => if n % 2 = 1 ∨ n = 0 then 0 else tzF f (n / 2) + 1

/-- Trailing zeros of `n` (`u64::trailing_zeros` / `rug`'s `find_one(0)`),
defined for positive `n`; `tz 0 = 0` (unused: the sources only take
trailing zeros of positive values on the verified paths). -/
def tz (n : Nat) : Nat := tzF n n

/-- Binary GCD from `src/util.rs::p_gcd`, with fuel.  Strips the factors
of two of each argument separately, recurses on `((max − min) / 2, min)`,
and stops when the stripped arguments are equal.  Note that the source
never multiplies the stripped common power of two back in. -/
def p_gcdF : Nat → Nat → Nat → Nat
  | 0, u, _ => u
  | f + 1, u, v =>
    if u = 0 then v
    else if v = 0 then u
    else
      let u' := u >>> tz u
      let v' := v >>> tz v
      if u' = v' then u'
      else if v' > u' then p_gcdF f ((v' - u') / 2) u'
      else p_gcdF f ((u' - v') / 2) v'

/-- Binary GCD `src/util.rs::p_gcd` (`u + v + 1` fuel always suffices:
the sum of the arguments at least halves at each recursive call). -/
def p_gcd (u v : Nat) : Nat := p_gcdF (u + v + 1) u v

/-- Newton iteration of `src/util.rs::p_integer_square_root`, with fuel
(the guess strictly decreases, so `fuel = guess` suffices).  This is the
same iteration as `Nat.sqrt.iter`. -/
def isqrt_iter (n : Nat) : Nat → Nat → Nat
  | 0, guess => guess
  | f + 1, guess =>
    let next := (guess + n / guess) / 2
    if next < guess then isqrt_iter n f next else guess

/-- Integer square root from `src/util.rs::p_integer_square_root`:
start at `n / 2`; if that is `0` return `n`, otherwise run the Newton
iteration until the sequence stops decreasing. -/
def p_integer_square_root (n : Nat) : Nat :=
  let r := n / 2
  if r = 0 then n else isqrt_iter n (n / 2) (n / 2)

/-- One `while n % f == 0` stripping loop of
`src/factoring/trial_division.rs::p_trial_division`: returns the list of
copies of `f` pushed and the remaining cofactor.  Fuel-structural; fuel
`n` suffices for `n ≥ 1`, `f ≥ 2`. -/
def stripF (f : Nat) : Nat → Nat → List Nat × Nat
  | 0, n => ([], n)
  | fu + 1, n =>
    if n % f = 0 then
      let (l, r) := stripF f fu (n / f)
      (f :: l, r)
    else ([], n)

/-- Wheel loop of `p_trial_division`.  `cf` is the current round base
(a multiple of 6), `maxpf` the cached `isqrt` of the residual, `acc` the
factors found so far.  Each round strips the candidates `cf+1` and `cf+5`,
then tests, in source order: residual `= 1` (exhaustive), round base
above `isqrt` (residual prime, exhaustive), round base above the caller's
`inclusive_bound` (residual appended, not exhaustive). -/
def trial_loop (bound : Nat) : Nat → Nat → Nat → Nat → List Nat → Option (List Nat × Bool)
  | 0, _, _, _, _ => none
  | fu + 1, n, cf, maxpf, acc =>
    let (l1, n1) := stripF (cf + 1) n n
    let (l2, n2) := stripF (cf + 5) n1 n1
    let changed := decide (n2 ≠ n)
    let acc := acc ++ l1 ++ l2
    if n2 = 1 then some (acc, true)
    else
      let maxpf := if changed then p_integer_square_root n2 else maxpf
      if cf > maxpf then some (acc ++ [n2], true)
      else if cf > bound then some (acc ++ [n2], false)
      else trial_loop bound fu n2 (cf + 6) maxpf acc

/-- Trial division `src/factoring/trial_division.rs::p_trial_division`:
divide by 2, 3, 5 first, then walk the wheel `6k+1, 6k+5`.  Returns
`none` only on inputs where the source diverges (`n = 0`); the wheel
loop's fuel `bound + 1` provably suffices. -/
def p_trial_division (n : Nat) (inclusive_bound : Nat) : Option (List Nat × Bool) :=
  let (r2, n2) := stripF 2 n n
  let (r3, n3) := stripF 3 n2 n2
  let (r5, n5) := stripF 5 n3 n3
  trial_loop inclusive_bound (inclusive_bound + 1) n5 6 (p_integer_square_root n5)
    (r2 ++ r3 ++ r5)

/-- Trait method `TrialDivision::trial_division` for the primitive widths
(delegates to `p_trial_division`). -/
def trial_division (n : Nat) (inclusive_bound : Nat) : Option (List Nat × Bool) :=
  p_trial_division n inclusive_bound

example : trial_division 143 10 = some ([11, 13], true) := by decide
example : trial_division 60 4095 = some ([2, 2, 3, 5], true) := by decide
example : trial_division 1 4095 = some ([], true) := by decide
example : p_gcd 2 2 = 1 := by decide
example : p_gcd 12 8 = 1 := by decide
example : p_gcd 15 9 = 3 := by decide
example : p_integer_square_root 143 = 11 := by decide

/-- Result of a single Miller–Rabin round
(`src/primality/miller_rabin.rs::Result`). -/
inductive MillerRabinCompositeResult where
  | Composite
  | MaybePrime
deriving DecidableEq, Repr

/-- Squaring loop of `miller_rabin` (`for _ in 1..s`, here `k = s - 1`
iterations): square `base_power` mod `n`; if it hits `n - 1` the number
may be prime, otherwise after the loop it is composite. -/
def mr_square_loop (n : Nat) : Nat → Nat → MillerRabinCompositeResult
  | 0, _ => .Composite
  | k + 1, bp =>
    let bp := bp * bp % n
    if bp = (n - 1) % n then .MaybePrime else mr_square_loop n k bp

/-- Miller–Rabin single-base compositeness test
(`src/primality/miller_rabin.rs`, identical for `u64` and `u128` under the
residue model of the Montgomery field). -/
def miller_rabin (n base : Nat) : MillerRabinCompositeResult :=
  if n = 2 then .MaybePrime
  else if n % 2 = 0 then .Composite
  else
    let n_minus_one := n - 1
    let s := tz n_minus_one
    let d := n_minus_one >>> s
    let baseM := base % n
    if baseM = 0 then .MaybePrime
    else
      let one := 1 % n
      let base_power := baseM ^ d % n
      let neg_one_mod := (n - 1) % n
      if base_power = one then .MaybePrime
      else if base_power = neg_one_mod then .MaybePrime
      else mr_square_loop n (s - 1) base_power

/-- Deterministic `u64` primality check `<u64 as Primality>::is_prime`
(`src/optimized_factoring/mod.rs`): Miller–Rabin with the seven-base set
that is deterministic below `2^64`. -/
def is_prime (n : Nat) : Bool :=
  [2, 325, 9375, 28178, 450775, 9780504, 1795265022].all
    (fun base => miller_rabin n base ≠ .Composite)

example : miller_rabin 9 2 = .Composite := by decide
example : miller_rabin 173 2 = .MaybePrime := by decide
example : miller_rabin (53 * 17) 2 = .Composite := by decide
example : is_prime 101 = true := by decide
example : is_prime 100 = false := by decide
example : is_prime 407521 = true := by decide

/-- Result of the Lucas primality test
(`src/primality/lucas_primality.rs::LucasPrimalityResult`). -/
inductive LucasPrimalityResult where
  | Prime
  | Composite
  | Unknown
deriving DecidableEq, Repr

/-- Divisor scan of `lucas_primality_test`: return `Unknown` at the first
`p` with `base^((n-1)/p) ≡ 1 (mod n)`, else `Prime` after the loop. -/
def lucas_divisor_scan (n n_minus_one base : Nat) : List Nat → LucasPrimalityResult
  | [] => .Prime
  | p :: ps =>
    if base ^ (n_minus_one / p) % n = 1 % n then .Unknown
    else lucas_divisor_scan n n_minus_one base ps

/-- Lucas primality test `src/primality/lucas_primality.rs`
(identical for all widths under the residue model): `Composite` when
`base^(n-1) ≢ 1 (mod n)`, else `Unknown` when some listed divisor `p` has
`base^((n-1)/p) ≡ 1 (mod n)`, else `Prime`. -/
def lucas_primality_test (n : Nat) (n_minus_1_unique_prime_factors : List Nat)
    (base : Nat) : LucasPrimalityResult :=
  let n_minus_one := n - 1
  if base ^ n_minus_one % n ≠ 1 % n then .Composite
  else lucas_divisor_scan n n_minus_one base n_minus_1_unique_prime_factors

example : lucas_primality_test 71 [2, 5, 7] 17 = .Unknown := by decide
example : lucas_primality_test 71 [2, 5, 7] 11 = .Prime := by decide

/-- Element of a Lucas certificate
(`src/optimized_factoring/certificate.rs::LucasCertificateElement`). -/
structure LucasCertificateElement where
  n : Nat
  base : Nat
  unique_prime_divisors : List Nat
deriving DecidableEq, Repr

/-- A Lucas certificate: the element list of
`src/optimized_factoring/certificate.rs::LucasCertificate`, kept sorted by
`n` by `push`. -/
abbrev LucasCertificate := List LucasCertificateElement

/-- Membership query `LucasCertificate::contains` (the source runs a
binary search by key `n` over the sorted element list; extensionally this
is existence of an element with that `n`). -/
def cert_contains (c : LucasCertificate) (i : Nat) : Bool :=
  c.any (fun e => e.n = i)

/-- Ordered insertion used by `LucasCertificate::push` on a miss:
the source inserts at the position reported by the binary search, which
on the sorted element list is the ordered-insertion position. -/
def cert_insert (e : LucasCertificateElement) : LucasCertificate → LucasCertificate
  | [] => [e]
  | x :: xs => if e.n < x.n then e :: x :: xs else x :: cert_insert e xs

/-- Idempotent insertion `LucasCertificate::push`: no-op when an element
with the same `n` is present, ordered insert otherwise. -/
def cert_push (c : LucasCertificate) (e : LucasCertificateElement) : LucasCertificate :=
  if cert_contains c e.n then c else cert_insert e c

/-- The sentinel certificate element for `n = 2`
(`{n: 2, base: 1, unique_prime_divisors: [1]}`). -/
def sentinel_element : LucasCertificateElement := ⟨2, 1, [1]⟩

/-- Rust's `Vec::dedup`: removes consecutive duplicates. -/
def rust_dedup : List Nat → List Nat
  | [] => []
  | [a] => [a]
  | a :: b :: r => if a = b then rust_dedup (b :: r) else a :: rust_dedup (b :: r)

example : rust_dedup [2, 2, 3, 5, 5, 5] = [2, 3, 5] := by decide

/-- Batched-gcd condition of the `u64` (and `u128`) Pollard cycle checker
(`src/factoring/pollard_rho.rs`, `PollardRhoCycleConditionCheckerU64::check`):
`(power - count) & ((1 << max(5, power.trailing_zeros() / 2)) - 1) == 1`. -/
def u64_gcd_check_condition (power count : Nat) : Bool :=
  (power - count) &&& ((1 <<< max 5 (tz power / 2)) - 1) = 1

/-- Batched-gcd condition of the bignum Pollard cycle checker
(`PollardRhoCycleConditionCheckerRug::check`):
`(power - count).keep_bits(max(4, power.find_one(0) / 2)) == 1`
(`keep_bits k` keeps the low `k` bits, i.e. masks with `2^k - 1`).
Note the `4` where the primitive widths use `5`. -/
def rug_gcd_check_condition (power count : Nat) : Bool :=
  (power - count) &&& ((1 <<< max 4 (tz power / 2)) - 1) = 1

/-- Number of significant bits, with fuel (structural recursion);
`bitlen n = Nat.size n` but evaluates by kernel reduction. -/
def bitlenF : Nat → Nat → Nat
  | 0, _ => 0
  | f + 1, n => if n = 0 then 0 else bitlenF f (n / 2) + 1

/-- Number of significant bits of `n`. -/
def bitlen (n : Nat) : Nat := bitlenF n n

/-- Modelled from the spec: the batched-gcd schedule as §4.5 words it,
`(power − count) & ((1 << max(5, bitlen(power)/2)) − 1) == 1`, reading
`bitlen` as the number of significant bits. -/
def spec_gcd_check_condition (power count : Nat) : Bool :=
  (power - count) &&& ((1 <<< max 5 (bitlen power / 2)) - 1) = 1

/-- Distance `|hare - tortoise|` used by the Pollard cycle checkers. -/
def rho_dist (hare tortoise : Nat) : Nat :=
  if hare > tortoise then hare - tortoise else tortoise - hare

/-- State of a Pollard cycle-condition checker: the running Montgomery
accumulator and the last recorded tortoise/hare positions (the modulus
`n` is passed separately). -/
structure RhoState where
  accum : Nat
  last_tortoise : Nat
  last_hare : Nat
deriving DecidableEq, Repr

/-- One step of `PollardRhoCycleConditionCheckerU64::check` (the `u128`
checker is the same function under the residue model): multiply
`|hare - tortoise|` into the accumulator, always record the tortoise,
and at the steps selected by `u64_gcd_check_condition` take a gcd with
`n`; a non-trivial gcd stops the cycle search, otherwise the hare is
recorded. -/
def check_u64 (n : Nat) (st : RhoState) (tortoise hare count power : Nat) :
    Bool × RhoState :=
  let st := { st with
    accum := st.accum * rho_dist hare tortoise % n
    last_tortoise := tortoise }
  if u64_gcd_check_condition power count then
    let d := p_gcd st.accum n
    if d ≠ 1 then (true, st)
    else (false, { st with last_hare := hare })
  else (false, st)

/-- One step of `PollardRhoCycleConditionCheckerRug::check`: same state
update as the primitive checkers but with the bignum gcd (modelled from
the spec as `Nat.gcd`, since `rug::Integer::gcd` is an external bignum
primitive) and the `max(4, …)` batching mask. -/
def check_rug (n : Nat) (st : RhoState) (tortoise hare count power : Nat) :
    Bool × RhoState :=
  let st := { st with
    accum := st.accum * rho_dist hare tortoise % n
    last_tortoise := tortoise }
  if rug_gcd_check_condition power count then
    let d := Nat.gcd st.accum n
    if d ≠ 1 then (true, st)
    else (false, { st with last_hare := hare })
  else (false, st)

/-- The Pollard iteration map `PollardRhoMapperU64::run`,
`x ↦ x² + increment (mod n)` under the residue model of the Montgomery
field. -/
def rho_map (n increment x : Nat) : Nat := (x * x + increment) % n

/-- Brent cycle driver `src/factoring/brent_cycle.rs::find_cycle`
specialised to the `u64` Pollard checker, with fuel: run the checker; on
`false` advance `count`, promote the tortoise when `count == power`
(doubling `power`), and step the hare. -/
def find_cycleF (n increment : Nat) :
    Nat → RhoState → Nat → Nat → Nat → Nat → Except RunError RhoState
  | 0, _, _, _, _, _ => .error .outOfFuel
  | fu + 1, st, tortoise, hare, power, count =>
    match check_u64 n st tortoise hare count power with
    | (true, st) => .ok st
    | (false, st) =>
      let count := count + 1
      if power = count then
        find_cycleF n increment fu st hare (rho_map n increment hare) (power <<< 1) 0
      else
        find_cycleF n increment fu st tortoise (rho_map n increment hare) power count

/-- Re-walk loop `PollardRhoCycleConditionCheckerU64::extract`: from the
last recorded hare, step forward computing `gcd(|hare - last_tortoise|, n)`
until it is non-trivial. -/
def rho_extractF (n increment last_tortoise : Nat) :
    Nat → Nat → Except RunError Nat
  | 0, _ => .error .outOfFuel
  | fu + 1, hare =>
    let x_minus_y_abs := if hare > last_tortoise then hare - last_tortoise
      else last_tortoise - hare
    let d := p_gcd (x_minus_y_abs % n) n
    if d ≠ 1 then .ok d
    else rho_extractF n increment last_tortoise fu (rho_map n increment hare)

/-- Pollard's Rho `<u64 as PollardRho>::pollard_rho` (the `u128` instance
is the same function under the residue model): run the Brent cycle search
from `start`, then extract the factor by re-walking; a result equal to
`n` is a failed attempt (`none`). -/
def pollard_rho (fuel n start increment : Nat) : Except RunError (Option Nat) :=
  let start := start % n
  let increment := increment % n
  let st0 : RhoState :=
    { accum := 1 % n, last_tortoise := start, last_hare := start }
  match find_cycleF n increment fuel st0 start (rho_map n increment start) 1 0 with
  | .error e => .error e
  | .ok st =>
    match rho_extractF n increment st.last_tortoise fuel
        (rho_map n increment st.last_hare) with
    | .error e => .error e
    | .ok d => if d = n then .ok none else .ok (some d)

/-- Requests of the mutually recursive `u64` driver functions of
`src/optimized_factoring/mod.rs`: `cf` is `certified_factor`, `cpc` is
`certified_prime_check`, `ploop` is `pollard_loop` (carrying the
composite stack, the primes found, and the current Pollard increment),
and `lsearch` is `certified_prime_check`'s `for base in 2..` Lucas
witness search.  The `Option LucasCertificate` is `PrimalityCertainty`:
`none` is `Guaranteed`, `some c` is `Certified(c)` with the certificate
threaded as state. -/
inductive DriverReq where
  | cf (n : Nat) (c : Option LucasCertificate)
  | cpc (n : Nat) (c : Option LucasCertificate)
  | ploop (stack primes : List Nat) (increment : Nat) (c : Option LucasCertificate)
  | lsearch (n : Nat) (divisors : List Nat) (base : Nat)
deriving DecidableEq, Repr

/-- Answers of the `u64` driver: a factor list (`cf`, `ploop`), a
primality decision (`cpc`), or a Lucas witness base (`lsearch`); the
first two return the threaded certificate. -/
inductive DriverAns where
  | factors (l : List Nat) (c : Option LucasCertificate)
  | decision (b : Bool) (c : Option LucasCertificate)
  | witness (w : Nat)
deriving DecidableEq, Repr

/-- The `sort_unstable()` call on the collected prime factors.  An
unstable sort of natural numbers is extensionally the unique sorted
permutation; modelled by insertion sort (structural, hence executable). -/
def sort_unstable (l : List Nat) : List Nat := List.insertionSort (· ≤ ·) l

/-- Certification pre-pass of `certified_factor` (the
`for prime_factor in &pre_processed[..len-1]` loop and, on exhaustive
results, the extra check of the last element): run
`certified_prime_check` over a list of factors, threading the
certificate and discarding the booleans. -/
def cpc_each (rec : DriverReq → Except RunError DriverAns) :
    List Nat → LucasCertificate → Except RunError LucasCertificate
  | [], c => .ok c
  | p :: ps, c =>
    match rec (.cpc p (some c)) with
    | .ok (.decision _ (some c')) => cpc_each rec ps c'
    | .ok _ => .error .panicked
    | .error e => .error e

/-- One unfolding of the `u64` driver (`src/optimized_factoring/mod.rs`):
each branch mirrors one source function; `rec` is the recursive call at
one unit less fuel, `fuel` is the budget handed to the `pollard_rho`
sub-loops.  Answer-shape mismatches (a `cpc` request answered with
`factors`, …) cannot occur and are mapped to `panicked`. -/
def driver_step (fuel : Nat) (rec : DriverReq → Except RunError DriverAns) :
    DriverReq → Except RunError DriverAns
  | .cf n c =>
    match trial_division n 4095 with
    | none => .error .outOfFuel
    | some (pre, ex) =>
      match c with
      | none =>
        if ex then .ok (.factors pre none)
        else
          match pre.getLast? with
          | none => .error .panicked
          | some last =>
            if is_prime last then .ok (.factors pre none)
            else
              match rec (.ploop [last] pre.dropLast 1 none) with
              | .ok (.factors l cr) => .ok (.factors (sort_unstable l) cr)
              | .ok _ => .error .panicked
              | .error e => .error e
      | some c0 =>
        match cpc_each rec pre.dropLast c0 with
        | .error e => .error e
        | .ok c1 =>
          match
            (if ex then
              match pre.getLast? with
              | none => .error .panicked
              | some x =>
                match rec (.cpc x (some c1)) with
                | .ok (.decision _ (some c')) => .ok c'
                | .ok _ => .error .panicked
                | .error e => .error e
            else .ok c1 : Except RunError LucasCertificate) with
          | .error e => .error e
          | .ok c2 =>
            if ex then .ok (.factors pre (some c2))
            else
              match pre.getLast? with
              | none => .error .panicked
              | some last =>
                match rec (.cpc last (some c2)) with
                | .ok (.decision true c3) => .ok (.factors pre c3)
                | .ok (.decision false c3) =>
                  match rec (.ploop [last] pre.dropLast 1 c3) with
                  | .ok (.factors l cr) => .ok (.factors (sort_unstable l) cr)
                  | .ok _ => .error .panicked
                  | .error e => .error e
                | .ok _ => .error .panicked
                | .error e => .error e
  | .cpc n c =>
    match c with
    | none => .ok (.decision (is_prime n) none)
    | some c =>
      if cert_contains c n then .ok (.decision true (some c))
      else if n = 2 then
        .ok (.decision true (some (cert_push c sentinel_element)))
      else if ¬ is_prime n then .ok (.decision false (some c))
      else
        match rec (.cf (n - 1) (some c)) with
        | .ok (.factors l (some c1)) =>
          let factors := rust_dedup l
          match rec (.lsearch n factors 2) with
          | .ok (.witness w) =>
            .ok (.decision true (some (cert_push c1 ⟨n, w, factors⟩)))
          | .ok _ => .error .panicked
          | .error e => .error e
        | .ok _ => .error .panicked
        | .error e => .error e
  | .ploop stack primes increment c =>
    match stack.getLast? with
    | none => .ok (.factors primes c)
    | some cur =>
      match pollard_rho fuel cur 2 increment with
      | .error e => .error e
      | .ok none => rec (.ploop stack primes (increment + 1) c)
      | .ok (some f) =>
        let stack := stack.dropLast
        let other := cur / f
        match rec (.cpc f c) with
        | .ok (.decision bf c1) =>
          let stack := if bf then stack else stack ++ [f]
          let primes := if bf then primes ++ [f] else primes
          match rec (.cpc other c1) with
          | .ok (.decision bo c2) =>
            let stack := if bo then stack else stack ++ [other]
            let primes := if bo then primes ++ [other] else primes
            rec (.ploop stack primes increment c2)
          | .ok _ => .error .panicked
          | .error e => .error e
        | .ok _ => .error .panicked
        | .error e => .error e
  | .lsearch n divisors base =>
    match lucas_primality_test n divisors base with
    | .Prime => .ok (.witness base)
    | .Composite => .error .panicked
    | .Unknown => rec (.lsearch n divisors (base + 1))

/-- The fuel-indexed `u64` driver: `driver fuel` interprets a request by
unfolding `driver_step` at most `fuel` times. -/
def driver : Nat → DriverReq → Except RunError DriverAns
  | 0, _ => .error .outOfFuel
  | fuel + 1, req => driver_step fuel (driver fuel) req

/-- Entry point `<u64 as CertifiedFactorization>::certified_factor`. -/
def certified_factor (fuel n : Nat) (c : Option LucasCertificate) :
    Except RunError (List Nat × Option LucasCertificate) :=
  match driver fuel (.cf n c) with
  | .ok (.factors l c') => .ok (l, c')
  | .ok _ => .error .panicked
  | .error e => .error e

/-- Entry point `<u64 as CertifiedFactorization>::certified_prime_check`. -/
def certified_prime_check (fuel n : Nat) (c : Option LucasCertificate) :
    Except RunError (Bool × Option LucasCertificate) :=
  match driver fuel (.cpc n c) with
  | .ok (.decision b c') => .ok (b, c')
  | .ok _ => .error .panicked
  | .error e => .error e

/-- Entry point `<u64 as Primality>::generate_lucas_certificate`: run
`certified_prime_check` on a fresh certificate; `some` iff it certified. -/
def generate_lucas_certificate (fuel n : Nat) :
    Except RunError (Option LucasCertificate) :=
  match certified_prime_check fuel n (some []) with
  | .ok (true, some c) => .ok (some c)
  | .ok _ => .ok none
  | .error e => .error e

/-- Entry point `<u64 as Factoring>::factor`
(`certified_factor` with `Guaranteed` certainty and no-op events). -/
def factor (fuel n : Nat) : Except RunError (List Nat) :=
  match certified_factor fuel n none with
  | .ok (l, _) => .ok l
  | .error e => .error e

/-- The `u64::MAX` downshift bound: `u64::try_from(n : u128)` succeeds
iff `n ≤ u64::MAX`, i.e. `n < 2^64`. -/
def u64_size : Nat := 2 ^ 64

/-- Even-input pre-check `check_two` of `src/optimized_factoring/mod.rs`
(used by the `u128` and bignum `certified_prime_check`): odd inputs fall
through (`none`), even inputs other than 2 are composite, and 2 pushes
the sentinel element (if absent) and is prime. -/
def check_two (n : Nat) (c : Option LucasCertificate) :
    Option Bool × Option LucasCertificate :=
  if n % 2 ≠ 0 then (none, c)
  else if n ≠ 2 then (some false, c)
  else
    match c with
    | none => (some true, none)
    | some c => (some true, some (cert_push c sentinel_element))

/-- Miller–Rabin pre-filter of `delayed_lucas`: `true` iff no base in the
list certifies compositeness. -/
def mr_prefilter (n : Nat) : List Nat → Bool
  | [] => true
  | b :: bs =>
    match miller_rabin n b with
    | .Composite => false
    | .MaybePrime => mr_prefilter n bs

/-- Lucas scan over the pre-bases `2..=20` of `delayed_lucas`: the first
`Prime` pushes the certificate element and decides `some true`, a
`Composite` decides `some false`, and if every base is `Unknown` the scan
is inconclusive (`none`). -/
def delayed_lucas_scan (n : Nat) (factors : List Nat) (c : Option LucasCertificate) :
    List Nat → Option Bool × Option LucasCertificate
  | [] => (none, c)
  | b :: bs =>
    match lucas_primality_test n factors b with
    | .Prime =>
      match c with
      | none => (some true, none)
      | some c => (some true, some (cert_push c ⟨n, b, factors⟩))
    | .Composite => (some false, c)
    | .Unknown => delayed_lucas_scan n factors c bs

/-- The inclusive base range `2..=20` used by `delayed_lucas`. -/
def pre_base_range : List Nat := [2, 3, 4, 5, 6, 7, 8, 9, 10, 11, 12, 13, 14, 15, 16, 17, 18, 19, 20]

/-- Requests of the `u128` driver (`impl CertifiedFactorization for u128`
in `src/optimized_factoring/mod.rs`): `certified_factor`,
`certified_prime_check`, the generic `pollard_loop` instantiated at
`u128`, and the escalation loop `miller_lucas_loop` starting at base 21. -/
inductive Driver128Req where
  | cf (n : Nat) (c : Option LucasCertificate)
  | cpc (n : Nat) (c : Option LucasCertificate)
  | ploop (stack primes : List Nat) (increment : Nat) (c : Option LucasCertificate)
  | mll (n base : Nat) (divisors : List Nat) (c : Option LucasCertificate)
deriving DecidableEq, Repr

/-- Certification pre-pass of the `u128` `certified_factor` (same shape
as `cpc_each`). -/
def cpc_each128 (rec : Driver128Req → Except RunError DriverAns) :
    List Nat → LucasCertificate → Except RunError LucasCertificate
  | [], c => .ok c
  | p :: ps, c =>
    match rec (.cpc p (some c)) with
    | .ok (.decision _ (some c')) => cpc_each128 rec ps c'
    | .ok _ => .error .panicked
    | .error e => .error e

/-- One unfolding of the `u128` driver.  Inputs that fit in a `u64` are
downshifted to the `u64` driver at the same fuel (the
`WrappingLucasCertificate` / `WrappingFactoringEventSubscriptor` adapters
convert element types by the total widening `u64 → u128`, which is the
identity in the `Nat` model). -/
def driver128_step (fuel : Nat) (rec : Driver128Req → Except RunError DriverAns) :
    Driver128Req → Except RunError DriverAns
  | .cf n c =>
    if n < u64_size then driver fuel (.cf n c)
    else
      match trial_division n 4095 with
      | none => .error .outOfFuel
      | some (pre, ex) =>
        match c with
        | none =>
          if ex then .ok (.factors pre none)
          else
            match pre.getLast? with
            | none => .error .panicked
            | some last =>
              match rec (.cpc last none) with
              | .ok (.decision true _) => .ok (.factors pre none)
              | .ok (.decision false _) =>
                match rec (.ploop [last] pre.dropLast 1 none) with
                | .ok (.factors l cr) => .ok (.factors (sort_unstable l) cr)
                | .ok _ => .error .panicked
                | .error e => .error e
              | .ok _ => .error .panicked
              | .error e => .error e
        | some c0 =>
          match cpc_each128 rec pre.dropLast c0 with
          | .error e => .error e
          | .ok c1 =>
            match
              (if ex then
                match pre.getLast? with
                | none => .error .panicked
                | some x =>
                  match rec (.cpc x (some c1)) with
                  | .ok (.decision _ (some c')) => .ok c'
                  | .ok _ => .error .panicked
                  | .error e => .error e
              else .ok c1 : Except RunError LucasCertificate) with
            | .error e => .error e
            | .ok c2 =>
              if ex then .ok (.factors pre (some c2))
              else
                match pre.getLast? with
                | none => .error .panicked
                | some last =>
                  match rec (.cpc last (some c2)) with
                  | .ok (.decision true c3) => .ok (.factors pre c3)
                  | .ok (.decision false c3) =>
                    match rec (.ploop [last] pre.dropLast 1 c3) with
                    | .ok (.factors l cr) => .ok (.factors (sort_unstable l) cr)
                    | .ok _ => .error .panicked
                    | .error e => .error e
                  | .ok _ => .error .panicked
                  | .error e => .error e
  | .cpc n c =>
    match check_two n c with
    | (some b, c) => .ok (.decision b c)
    | (none, c) =>
      if n < u64_size then driver fuel (.cpc n c)
      else if ¬ mr_prefilter n pre_base_range then .ok (.decision false c)
      else
        match rec (.cf (n - 1) c) with
        | .ok (.factors l c1) =>
          let factors := rust_dedup l
          match delayed_lucas_scan n factors c1 pre_base_range with
          | (some b, c2) => .ok (.decision b c2)
          | (none, c2) => rec (.mll n 21 factors c2)
        | .ok _ => .error .panicked
        | .error e => .error e
  | .ploop stack primes increment c =>
    match stack.getLast? with
    | none => .ok (.factors primes c)
    | some cur =>
      match pollard_rho fuel cur 2 increment with
      | .error e => .error e
      | .ok none => rec (.ploop stack primes (increment + 1) c)
      | .ok (some f) =>
        let stack := stack.dropLast
        let other := cur / f
        match rec (.cpc f c) with
        | .ok (.decision bf c1) =>
          let stack := if bf then stack else stack ++ [f]
          let primes := if bf then primes ++ [f] else primes
          match rec (.cpc other c1) with
          | .ok (.decision bo c2) =>
            let stack := if bo then stack else stack ++ [other]
            let primes := if bo then primes ++ [other] else primes
            rec (.ploop stack primes increment c2)
          | .ok _ => .error .panicked
          | .error e => .error e
        | .ok _ => .error .panicked
        | .error e => .error e
  | .mll n base divisors c =>
    match miller_rabin n base with
    | .Composite => .ok (.decision false c)
    | .MaybePrime =>
      match lucas_primality_test n divisors base with
      | .Prime =>
        match c with
        | none => .ok (.decision true none)
        | some c => .ok (.decision true (some (cert_push c ⟨n, base, divisors⟩)))
      | .Composite => .ok (.decision false c)
      | .Unknown => rec (.mll n (base + 1) divisors c)

/-- The fuel-indexed `u128` driver. -/
def driver128 : Nat → Driver128Req → Except RunError DriverAns
  | 0, _ => .error .outOfFuel
  | fuel + 1, req => driver128_step fuel (driver128 fuel) req

/-- Entry point `<u128 as CertifiedFactorization>::certified_factor`. -/
def certified_factor_u128 (fuel n : Nat) (c : Option LucasCertificate) :
    Except RunError (List Nat × Option LucasCertificate) :=
  match driver128 fuel (.cf n c) with
  | .ok (.factors l c') => .ok (l, c')
  | .ok _ => .error .panicked
  | .error e => .error e

/-- Entry point `<u128 as CertifiedFactorization>::certified_prime_check`. -/
def certified_prime_check_u128 (fuel n : Nat) (c : Option LucasCertificate) :
    Except RunError (Bool × Option LucasCertificate) :=
  match driver128 fuel (.cpc n c) with
  | .ok (.decision b c') => .ok (b, c')
  | .ok _ => .error .panicked
  | .error e => .error e

/-- Entry point `<u128 as Primality>::is_prime`: downshift to the
deterministic `u64` check when the value fits, otherwise run the
certificate-free certified check. -/
def is_prime_u128 (fuel n : Nat) : Except RunError Bool :=
  if n < u64_size then .ok (is_prime n)
  else
    match certified_prime_check_u128 fuel n none with
    | .ok (b, _) => .ok b
    | .error e => .error e

/-- Entry point `<u128 as Primality>::generate_lucas_certificate`: run
`certified_prime_check` on a fresh certificate; `some` iff it certified. -/
def generate_lucas_certificate_u128 (fuel n : Nat) :
    Except RunError (Option LucasCertificate) :=
  match certified_prime_check_u128 fuel n (some []) with
  | .ok (true, some c) => .ok (some c)
  | .ok _ => .ok none
  | .error e => .error e

/-- Exact division of all powers of `p` out of `m` (one step of the
certificate consumer's reverification procedure, §6 of the spec). -/
def strip_all (p m : Nat) : Nat := (stripF p m m).2

/-- Repeated exact division of `m` by each listed prime in turn; the
certificate invariant requires this to terminate at 1 for `m = e.n - 1`
over `e.unique_prime_divisors`. -/
def strip_list : List Nat → Nat → Nat
  | [], m => m
  | p :: ps, m => strip_list ps (strip_all p m)

/-- Certificates are kept strictly sorted by `n` (the source's `push`
inserts at the binary-search position and never duplicates an `n`). -/
def cert_sorted (c : LucasCertificate) : Prop :=
  List.Chain' (fun a b => a.n < b.n) c

/-- The certificate-element invariant (§3 / property 6 of the spec,
scoped as the code maintains it): every element has `n ≥ 2`; the `n = 2`
element is exactly the sentinel; and every element with `n > 2` carries a
Lucas witness — `base^(n-1) ≡ 1 (mod n)`, each listed divisor `p`
satisfies `base^((n-1)/p) ≢ 1 (mod n)`, is at least 2, is smaller than
`n` and occurs as the `n` of another (hence earlier) element, and
repeated exact division of `n - 1` by the listed divisors reaches 1. -/
def good_element (c : LucasCertificate) (e : LucasCertificateElement) : Prop :=
  2 ≤ e.n ∧ (e.n = 2 → e = sentinel_element) ∧
  (2 < e.n →
    e.base ^ (e.n - 1) % e.n = 1 ∧
    (∀ p ∈ e.unique_prime_divisors,
      e.base ^ ((e.n - 1) / p) % e.n ≠ 1 ∧ 2 ≤ p ∧ p < e.n ∧
      ∃ e' ∈ c, e'.n = p) ∧
    strip_list e.unique_prime_divisors (e.n - 1) = 1)

/-- A certificate all of whose elements satisfy the invariant. -/
def valid_cert (c : LucasCertificate) : Prop :=
  cert_sorted c ∧ ∀ e ∈ c, good_element c e

/-- Validity of an optional certificate (`Guaranteed` mode carries none). -/
def valid_opt_cert : Option LucasCertificate → Prop
  | none => True
  | some c => valid_cert c

/-- Spec-worded certificate invariants for claim statements: the element
list is strictly sorted by `n`; the `n = 2` element is the sentinel; and
each element with `n > 2` satisfies `base^(n-1) ≡ 1 (mod n)` and, for
every listed `p`: `base^((n-1)/p) ≢ 1 (mod n)`, `p` is the `n` of an
earlier element (smaller `n`, hence earlier in the sorted list), and
repeated exact division of `n - 1` by the listed divisors reaches 1. -/
def cert_invariants (c : LucasCertificate) : Prop :=
  cert_sorted c ∧
  ∀ e ∈ c,
    (e.n = 2 → e = sentinel_element) ∧
    (2 < e.n →
      Nat.ModEq e.n (e.base ^ (e.n - 1)) 1 ∧
      (∀ p ∈ e.unique_prime_divisors,
        ¬ Nat.ModEq e.n (e.base ^ ((e.n - 1) / p)) 1 ∧
        ∃ e' ∈ c, e'.n = p ∧ e'.n < e.n) ∧
      strip_list e.unique_prime_divisors (e.n - 1) = 1)

/-!
Theorems.  First the facts about the numeric helpers, then trial
division, then the certified driver, and finally the claim theorems.
-/

theorem tzF_spec : ∀ f n, 0 < n → n ≤ f →
    2 ^ tzF f n * (n >>> tzF f n) = n ∧ (n >>> tzF f n) % 2 = 1 := by
  intro f
  induction f with
  | zero => intro n hn hle; omega
  | succ f ih =>
    intro n hn hle
    by_cases hodd : n % 2 = 1 ∨ n = 0
    · simp only [tzF, if_pos hodd, pow_zero, one_mul, Nat.shiftRight_zero]
      exact ⟨trivial, hodd.resolve_right (by omega)⟩
    · have heven : n % 2 = 0 := by omega
      have hn2 : 0 < n / 2 := by omega
      have hn2le : n / 2 ≤ f := by omega
      obtain ⟨hprod, hodd'⟩ := ih (n / 2) hn2 hn2le
      simp only [tzF, if_neg hodd]
      rw [Nat.shiftRight_eq_div_pow] at hprod hodd' ⊢
      have hdiv : n / 2 ^ (tzF f (n / 2) + 1) = n / 2 / 2 ^ tzF f (n / 2) := by
        rw [Nat.div_div_eq_div_mul, pow_succ, Nat.mul_comm]
      rw [hdiv]
      constructor
      · calc 2 ^ (tzF f (n / 2) + 1) * (n / 2 / 2 ^ tzF f (n / 2))
            = 2 * (2 ^ tzF f (n / 2) * (n / 2 / 2 ^ tzF f (n / 2))) := by ring
        _ = 2 * (n / 2) := by rw [hprod]
        _ = n := by omega
      · exact hodd'

theorem tz_spec (n : Nat) (hn : 0 < n) :
    2 ^ tz n * (n >>> tz n) = n ∧ (n >>> tz n) % 2 = 1 :=
  tzF_spec n n hn le_rfl

theorem p_gcdF_dvd : ∀ f u v, 0 < u → 0 < v → u + v ≤ f →
    p_gcdF f u v ∣ u ∧ p_gcdF f u v ∣ v := by
  intro f
  induction f with
  | zero => intro u v hu hv hle; omega
  | succ f ih =>
    intro u v hu hv hle
    have hu0 : u ≠ 0 := by omega
    have hv0 : v ≠ 0 := by omega
    obtain ⟨hup, huo⟩ := tz_spec u hu
    obtain ⟨hvp, hvo⟩ := tz_spec v hv
    set u' := u >>> tz u with hu'
    set v' := v >>> tz v with hv'
    have hu'pos : 0 < u' := by
      rcases Nat.eq_zero_or_pos u' with h | h
      · rw [h, Nat.mul_zero] at hup; omega
      · exact h
    have hv'pos : 0 < v' := by
      rcases Nat.eq_zero_or_pos v' with h | h
      · rw [h, Nat.mul_zero] at hvp; omega
      · exact h
    have hu'u : u' ∣ u := ⟨2 ^ tz u, by rw [Nat.mul_comm]; exact hup.symm⟩
    have hv'v : v' ∣ v := ⟨2 ^ tz v, by rw [Nat.mul_comm]; exact hvp.symm⟩
    have hu'le : u' ≤ u := Nat.le_of_dvd hu hu'u
    have hv'le : v' ≤ v := Nat.le_of_dvd hv hv'v
    simp only [p_gcdF, if_neg hu0, if_neg hv0]
    by_cases heq : u' = v'
    · simp only [if_pos heq]
      have hv2 : u' ∣ v := by rw [heq]; exact hv'v
      exact ⟨hu'u, hv2⟩
    · simp only [if_neg heq]
      by_cases hlt : v' > u'
      · simp only [if_pos hlt]
        have hge2 : u' + 2 ≤ v' := by omega
        have hmul : ((v' - u') / 2) * 2 ≤ v' - u' := Nat.div_mul_le_self _ _
        have hdpos : 0 < (v' - u') / 2 := by omega
        have hfuel : (v' - u') / 2 + u' ≤ f := by omega
        obtain ⟨hd1, hd2⟩ := ih ((v' - u') / 2) u' hdpos hu'pos hfuel
        set d := p_gcdF f ((v' - u') / 2) u' with hd
        have hdodd : d % 2 = 1 := by
          rcases Nat.even_or_odd d with he | ho
          · exfalso
            obtain ⟨k, hk⟩ := he
            have h2d : (2 : Nat) ∣ d := ⟨k, by omega⟩
            have h2u : (2 : Nat) ∣ u' := h2d.trans hd2
            omega
          · obtain ⟨k, hk⟩ := ho
            omega
        have hdiff : d ∣ v' - u' := by
          have h2 : v' - u' = 2 * ((v' - u') / 2) := by omega
          rw [h2]; exact Dvd.dvd.mul_left hd1 2
        have hdv' : d ∣ v' := by
          have : v' = (v' - u') + u' := by omega
          rw [this]; exact Nat.dvd_add hdiff hd2
        exact ⟨hd2.trans hu'u, hdv'.trans hv'v⟩
      · simp only [if_neg hlt]
        have hgt : v' + 2 ≤ u' := by omega
        have hmul : ((u' - v') / 2) * 2 ≤ u' - v' := Nat.div_mul_le_self _ _
        have hdpos : 0 < (u' - v') / 2 := by omega
        have hfuel : (u' - v') / 2 + v' ≤ f := by omega
        obtain ⟨hd1, hd2⟩ := ih ((u' - v') / 2) v' hdpos hv'pos hfuel
        set d := p_gcdF f ((u' - v') / 2) v' with hd
        have hdodd : d % 2 = 1 := by
          rcases Nat.even_or_odd d with he | ho
          · exfalso
            obtain ⟨k, hk⟩ := he
            have h2d : (2 : Nat) ∣ d := ⟨k, by omega⟩
            have h2v : (2 : Nat) ∣ v' := h2d.trans hd2
            omega
          · obtain ⟨k, hk⟩ := ho
            omega
        have hdiff : d ∣ u' - v' := by
          have h2 : u' - v' = 2 * ((u' - v') / 2) := by omega
          rw [h2]; exact Dvd.dvd.mul_left hd1 2
        have hdu' : d ∣ u' := by
          have : u' = (u' - v') + v' := by omega
          rw [this]; exact Nat.dvd_add hdiff hd2
        exact ⟨hdu'.trans hu'u, hd2.trans hv'v⟩

theorem p_gcd_dvd_right (u v : Nat) (hv : 0 < v) : p_gcd u v ∣ v := by
  rcases Nat.eq_zero_or_pos u with h | h
  · subst h
    simp [p_gcd, p_gcdF]
  · exact (p_gcdF_dvd (u + v + 1) u v h hv (by omega)).2

theorem isqrt_iter_eq (n : Nat) : ∀ f guess, guess ≤ f →
    isqrt_iter n f guess = Nat.sqrt.iter n guess := by
  intro f
  induction f with
  | zero =>
    intro guess hle
    have h0 : guess = 0 := by omega
    subst h0
    rw [Nat.sqrt.iter]
    simp [isqrt_iter]
  | succ f ih =>
    intro guess hle
    rw [Nat.sqrt.iter]
    simp only [isqrt_iter]
    by_cases h : (guess + n / guess) / 2 < guess
    · rw [if_pos h, dif_pos h, ih _ (by omega)]
    · rw [if_neg h, dif_neg h]

theorem p_isqrt_eq_sqrt (n : Nat) : p_integer_square_root n = Nat.sqrt n := by
  by_cases h : n / 2 = 0
  · have hn : n ≤ 1 := by omega
    interval_cases n <;> simp [p_integer_square_root, Nat.sqrt]
  · have hn : 2 ≤ n := by omega
    have h1 : ¬ n ≤ 1 := by omega
    simp only [p_integer_square_root, if_neg h]
    rw [isqrt_iter_eq n (n / 2) (n / 2) le_rfl, Nat.sqrt, if_neg h1]

theorem stripF_facts (f : Nat) (hf : 2 ≤ f) : ∀ fu n, 0 < n → n ≤ fu →
    (∀ x ∈ (stripF f fu n).1, x = f) ∧
    (stripF f fu n).2 * f ^ (stripF f fu n).1.length = n ∧
    ¬ f ∣ (stripF f fu n).2 ∧ 0 < (stripF f fu n).2 ∧ (stripF f fu n).2 ≤ n := by
  intro fu
  induction fu with
  | zero => intro n hn hle; omega
  | succ fu ih =>
    intro n hn hle
    by_cases h : n % f = 0
    · have hfd : f ∣ n := Nat.dvd_of_mod_eq_zero h
      have hfn : f ≤ n := Nat.le_of_dvd hn hfd
      have hq : 0 < n / f := Nat.div_pos hfn (by omega)
      have hqlt : n / f < n := Nat.div_lt_self hn (by omega)
      have hql : n / f ≤ fu := by omega
      obtain ⟨hmem, hprod, hnd, hpos, hle'⟩ := ih (n / f) hq hql
      simp only [stripF, if_pos h]
      constructor
      · intro x hx
        rcases List.mem_cons.mp hx with h1 | h1
        · exact h1
        · exact hmem x h1
      refine ⟨?_, hnd, hpos, by omega⟩
      simp only [List.length_cons, pow_succ]
      calc (stripF f fu (n / f)).2 * ((f ^ (stripF f fu (n / f)).1.length) * f)
          = ((stripF f fu (n / f)).2 * f ^ (stripF f fu (n / f)).1.length) * f := by ring
      _ = (n / f) * f := by rw [hprod]
      _ = n := Nat.div_mul_cancel hfd
    · simp only [stripF, if_neg h]
      refine ⟨by simp, by simp, ?_, hn, le_rfl⟩
      intro hd
      obtain ⟨k, hk⟩ := hd
      exact h (by rw [hk, Nat.mul_mod_right])

theorem sorted_of_all_eq (c : Nat) : ∀ l : List Nat, (∀ x ∈ l, x = c) →
    List.Sorted (· ≤ ·) l := by
  intro l
  induction l with
  | nil => intro _; exact List.sorted_nil
  | cons a t ih =>
    intro h
    refine List.Pairwise.cons ?_ (ih fun x hx => h x (List.mem_cons_of_mem a hx))
    intro b hb
    rw [h a (List.mem_cons_self a t), h b (List.mem_cons_of_mem a hb)]

theorem wheel_candidate_is_prime (cand n cf : Nat) (hcf : 6 ≤ cf)
    (hc1 : cf < cand) (hc2 : cand ≤ cf + 5) (hdvd : cand ∣ n)
    (hinv : ∀ p, Nat.Prime p → p < cf → ¬ p ∣ n) : Nat.Prime cand := by
  have hcand2 : 2 ≤ cand := by omega
  have hq : Nat.Prime (Nat.minFac cand) := Nat.minFac_prime (by omega)
  have hqd : Nat.minFac cand ∣ cand := Nat.minFac_dvd _
  have hqn : Nat.minFac cand ∣ n := hqd.trans hdvd
  have hqge : cf ≤ Nat.minFac cand := by
    by_contra hlt
    exact hinv _ hq (by omega) hqn
  have hqle : Nat.minFac cand ≤ cand := Nat.le_of_dvd (by omega) hqd
  have hsub : Nat.minFac cand ∣ cand - Nat.minFac cand :=
    Nat.dvd_sub' hqd (dvd_refl _)
  have heq : Nat.minFac cand = cand := by
    rcases Nat.eq_zero_or_pos (cand - Nat.minFac cand) with h0 | hpos
    · omega
    · have := Nat.le_of_dvd hpos hsub
      omega
  exact Nat.prime_def_minFac.mpr ⟨hcand2, heq⟩

theorem trial_loop_correct (bound : Nat) : ∀ fu n cf maxpf acc,
    0 < n → maxpf = Nat.sqrt n → 6 ≤ cf → cf % 6 = 0 →
    (∀ p, Nat.Prime p → p < cf → ¬ p ∣ n) →
    (∀ x ∈ acc, Nat.Prime x ∧ x < cf) →
    List.Sorted (· ≤ ·) acc →
    ∀ l ex, trial_loop bound fu n cf maxpf acc = some (l, ex) →
      List.Sorted (· ≤ ·) l ∧ l.prod = acc.prod * n ∧
      (ex = true → ∀ x ∈ l, Nat.Prime x) ∧
      (ex = false → ∃ li r, l = li ++ [r] ∧ (∀ x ∈ li, Nat.Prime x) ∧ 1 < r) := by
  intro fu
  induction fu with
  | zero => intro n cf maxpf acc _ _ _ _ _ _ _ l ex hres; simp [trial_loop] at hres
  | succ fu ih =>
    intro n cf maxpf acc hn hmax hcf6 hcfmod hinv hacc haccs l ex hres
    rcases hse1 : stripF (cf + 1) n n with ⟨l1, n1⟩
    have F1 := stripF_facts (cf + 1) (by omega) n n hn le_rfl
    rw [hse1] at F1
    obtain ⟨hm1, hp1, hnd1, hpos1, hle1⟩ := F1
    have hn1dvd : n1 ∣ n := ⟨(cf + 1) ^ l1.length, hp1.symm⟩
    rcases hse2 : stripF (cf + 5) n1 n1 with ⟨l2, n2⟩
    have F2 := stripF_facts (cf + 5) (by omega) n1 n1 hpos1 le_rfl
    rw [hse2] at F2
    obtain ⟨hm2, hp2, hnd2, hpos2, hle2⟩ := F2
    have hn2dvd1 : n2 ∣ n1 := ⟨(cf + 5) ^ l2.length, hp2.symm⟩
    have hn2dvd : n2 ∣ n := hn2dvd1.trans hn1dvd
    have hprime1 : ∀ x ∈ l1, Nat.Prime x := by
      intro x hx
      rw [hm1 x hx]
      have hdvd : (cf + 1) ∣ n := by
        rcases l1 with _ | ⟨a, t⟩
        · simp at hx
        · have h1 : (cf + 1) ∣ (cf + 1) ^ (a :: t).length :=
            dvd_pow_self _ (by simp)
          have h2 : (cf + 1) ^ (a :: t).length ∣ n :=
            ⟨n1, by rw [Nat.mul_comm]; exact hp1.symm⟩
          exact h1.trans h2
      exact wheel_candidate_is_prime _ n cf hcf6 (by omega) (by omega) hdvd hinv
    have hprime2 : ∀ x ∈ l2, Nat.Prime x := by
      intro x hx
      rw [hm2 x hx]
      have hdvd : (cf + 5) ∣ n := by
        rcases l2 with _ | ⟨a, t⟩
        · simp at hx
        · have h1 : (cf + 5) ∣ (cf + 5) ^ (a :: t).length :=
            dvd_pow_self _ (by simp)
          have h2 : (cf + 5) ^ (a :: t).length ∣ n1 :=
            ⟨n2, by rw [Nat.mul_comm]; exact hp2.symm⟩
          exact (h1.trans h2).trans hn1dvd
      exact wheel_candidate_is_prime _ n cf hcf6 (by omega) (by omega) hdvd hinv
    -- every prime factor of the residual n2 is at least cf + 6
    have hres_fac : ∀ p, Nat.Prime p → p ∣ n2 → cf + 6 ≤ p := by
      intro p hp hpd
      have hpn : p ∣ n := hpd.trans hn2dvd
      have hpge : cf ≤ p := by
        by_contra hlt
        exact hinv p hp (by omega) hpn
      have hp2' : 2 ≤ p := hp.two_le
      have hodd : ¬ (2 ∣ p) ∨ p = 2 := by
        by_cases h2 : 2 ∣ p
        · right
          exact ((Nat.Prime.eq_one_or_self_of_dvd hp 2 h2).resolve_left (by omega)).symm
        · left; exact h2
      have hpne : p ≠ cf ∧ p ≠ cf + 2 ∧ p ≠ cf + 4 := by
        have h2cf : 2 ∣ cf := by omega
        rcases hodd with h | h
        · refine ⟨?_, ?_, ?_⟩ <;> rintro rfl <;> exact h (by omega)
        · omega
      have hpne3 : p ≠ cf + 3 := by
        rintro rfl
        have h3 : 3 ∣ cf + 3 := by omega
        have := (Nat.Prime.eq_one_or_self_of_dvd hp 3 h3).resolve_left (by omega)
        omega
      have hpne1 : p ≠ cf + 1 := by
        rintro rfl
        exact hnd1 (hpd.trans hn2dvd1)
      have hpne5 : p ≠ cf + 5 := by
        rintro rfl
        exact hnd2 hpd
      omega
    have hres_ge : 2 ≤ n2 → cf + 6 ≤ n2 := by
      intro h2
      have hq := Nat.minFac_prime (n := n2) (by omega)
      have := hres_fac _ hq (Nat.minFac_dvd _)
      have hle := Nat.le_of_dvd (by omega) (Nat.minFac_dvd n2)
      omega
    -- facts about the accumulated list acc ++ l1 ++ l2
    have hacc' : ∀ x ∈ acc ++ l1 ++ l2, Nat.Prime x ∧ x < cf + 6 := by
      intro x hx
      rcases List.mem_append.mp hx with hx' | hx'
      · rcases List.mem_append.mp hx' with h | h
        · exact ⟨(hacc x h).1, by have := (hacc x h).2; omega⟩
        · exact ⟨hprime1 x h, by have := hm1 x h; omega⟩
      · exact ⟨hprime2 x hx', by have := hm2 x hx'; omega⟩
    have haccs' : List.Sorted (· ≤ ·) (acc ++ l1 ++ l2) := by
      apply List.pairwise_append.mpr
      refine ⟨?_, sorted_of_all_eq _ _ hm2, ?_⟩
      · apply List.pairwise_append.mpr
        refine ⟨haccs, sorted_of_all_eq _ _ hm1, ?_⟩
        intro a ha b hb
        have := (hacc a ha).2
        have := hm1 b hb
        omega
      · intro a ha b hb
        have hb' := hm2 b hb
        rcases List.mem_append.mp ha with h | h
        · have := (hacc a h).2; omega
        · have := hm1 a h; omega
    have hprod' : (acc ++ l1 ++ l2).prod * n2 = acc.prod * n := by
      rw [List.prod_append, List.prod_append,
        List.prod_eq_pow_card l1 _ hm1, List.prod_eq_pow_card l2 _ hm2]
      calc acc.prod * (cf + 1) ^ l1.length * (cf + 5) ^ l2.length * n2
          = acc.prod * ((n2 * (cf + 5) ^ l2.length) * (cf + 1) ^ l1.length) := by ring
      _ = acc.prod * (n1 * (cf + 1) ^ l1.length) := by rw [hp2]
      _ = acc.prod * n := by rw [hp1]
    simp only [trial_loop, hse1, hse2] at hres
    by_cases hone : n2 = 1
    · rw [if_pos hone] at hres
      obtain ⟨hl, hex⟩ := Prod.mk.injEq .. ▸ (Option.some.injEq _ _ ▸ hres)
      subst hl hex
      refine ⟨haccs', ?_, fun _ x hx => (hacc' x hx).1, by simp⟩
      have := hprod'
      rw [hone, Nat.mul_one] at this
      exact this
    · rw [if_neg hone] at hres
      have h2n2 : 2 ≤ n2 := by omega
      have hge6 : cf + 6 ≤ n2 := hres_ge h2n2
      have hmax' :
          (if (decide (n2 ≠ n) : Bool) = true then p_integer_square_root n2 else maxpf)
            = Nat.sqrt n2 := by
        by_cases hch : n2 = n
        · simp [hch, hmax, p_isqrt_eq_sqrt]
        · simp [hch, p_isqrt_eq_sqrt]
      rw [hmax'] at hres
      by_cases hsq : cf > Nat.sqrt n2
      · rw [if_pos hsq] at hres
        obtain ⟨hl, hex⟩ := Prod.mk.injEq .. ▸ (Option.some.injEq _ _ ▸ hres)
        subst hl hex
        have hn2p : Nat.Prime n2 := by
          by_contra hnp
          have hsqle := Nat.minFac_sq_le_self (by omega) hnp
          have h1 : Nat.minFac n2 ≤ Nat.sqrt n2 := by
            rw [Nat.le_sqrt]
            calc Nat.minFac n2 * Nat.minFac n2 = Nat.minFac n2 ^ 2 := (Nat.pow_two _).symm
            _ ≤ n2 := hsqle
          have h2 := hres_fac _ (Nat.minFac_prime (by omega)) (Nat.minFac_dvd _)
          omega
        refine ⟨?_, ?_, ?_, by simp⟩
        · apply List.pairwise_append.mpr
          refine ⟨haccs', List.sorted_singleton _, ?_⟩
          intro a ha b hb
          rw [List.mem_singleton.mp hb]
          have := (hacc' a ha).2
          omega
        · rw [List.prod_append, List.prod_singleton]
          exact hprod'
        · intro _ x hx
          rcases List.mem_append.mp hx with h | h
          · exact (hacc' x h).1
          · rw [List.mem_singleton.mp h]; exact hn2p
      · rw [if_neg hsq] at hres
        by_cases hbd : cf > bound
        · rw [if_pos hbd] at hres
          obtain ⟨hl, hex⟩ := Prod.mk.injEq .. ▸ (Option.some.injEq _ _ ▸ hres)
          subst hl hex
          refine ⟨?_, ?_, by simp, ?_⟩
          · apply List.pairwise_append.mpr
            refine ⟨haccs', List.sorted_singleton _, ?_⟩
            intro a ha b hb
            rw [List.mem_singleton.mp hb]
            have := (hacc' a ha).2
            omega
          · rw [List.prod_append, List.prod_singleton]
            exact hprod'
          · intro _
            exact ⟨acc ++ l1 ++ l2, n2, rfl, fun x hx => (hacc' x hx).1, by omega⟩
        · rw [if_neg hbd] at hres
          have hinv' : ∀ p, Nat.Prime p → p < cf + 6 → ¬ p ∣ n2 := by
            intro p hp hplt hpd
            have := hres_fac p hp hpd
            omega
          have := ih n2 (cf + 6) (Nat.sqrt n2) (acc ++ l1 ++ l2) (by omega) rfl
            (by omega) (by omega) hinv' hacc' haccs' l ex hres
          obtain ⟨hs, hpr, hext, hexf⟩ := this
          refine ⟨hs, ?_, hext, hexf⟩
          rw [hpr, hprod']

theorem trial_loop_total (bound : Nat) : ∀ fu n cf maxpf acc,
    bound < cf + 6 * fu →
    (trial_loop bound (fu + 1) n cf maxpf acc).isSome := by
  intro fu
  induction fu with
  | zero =>
    intro n cf maxpf acc hb
    rcases hse1 : stripF (cf + 1) n n with ⟨l1, n1⟩
    rcases hse2 : stripF (cf + 5) n1 n1 with ⟨l2, n2⟩
    simp only [trial_loop, hse1, hse2]
    by_cases h1 : n2 = 1
    · rw [if_pos h1]; rfl
    · rw [if_neg h1]
      set m := (if (decide (n2 ≠ n) : Bool) = true
          then p_integer_square_root n2 else maxpf) with hm
      by_cases h2 : cf > m
      · rw [if_pos h2]; rfl
      · rw [if_neg h2]
        have h3 : cf > bound := by omega
        rw [if_pos h3]; rfl
  | succ fu ih =>
    intro n cf maxpf acc hb
    rcases hse1 : stripF (cf + 1) n n with ⟨l1, n1⟩
    rcases hse2 : stripF (cf + 5) n1 n1 with ⟨l2, n2⟩
    simp only [trial_loop, hse1, hse2]
    by_cases h1 : n2 = 1
    · rw [if_pos h1]; rfl
    · rw [if_neg h1]
      set m := (if (decide (n2 ≠ n) : Bool) = true
          then p_integer_square_root n2 else maxpf) with hm
      by_cases h2 : cf > m
      · rw [if_pos h2]; rfl
      · rw [if_neg h2]
        by_cases h3 : cf > bound
        · rw [if_pos h3]; rfl
        · rw [if_neg h3]
          exact ih n2 (cf + 6) _ _ (by omega)

theorem trial_division_total (n bound : Nat) :
    (trial_division n bound).isSome := by
  unfold trial_division p_trial_division
  rcases hse2 : stripF 2 n n with ⟨r2, n2⟩
  rcases hse3 : stripF 3 n2 n2 with ⟨r3, n3⟩
  rcases hse5 : stripF 5 n3 n3 with ⟨r5, n5⟩
  simp only [hse2, hse3, hse5]
  exact trial_loop_total bound bound n5 6 _ _ (by omega)

theorem trial_division_facts (n bound : Nat) (l : List Nat) (ex : Bool)
    (hn : 2 ≤ n) (h : trial_division n bound = some (l, ex)) :
    List.Sorted (· ≤ ·) l ∧ l.prod = n ∧
    (ex = true → ∀ x ∈ l, Nat.Prime x) ∧
    (ex = false → ∃ li r, l = li ++ [r] ∧ (∀ x ∈ li, Nat.Prime x) ∧ 1 < r) := by
  unfold trial_division p_trial_division at h
  rcases hse2 : stripF 2 n n with ⟨r2, n2⟩
  have F2 := stripF_facts 2 le_rfl n n (by omega) le_rfl
  rw [hse2] at F2
  obtain ⟨hm2, hp2, hnd2, hpos2, hle2⟩ := F2
  rcases hse3 : stripF 3 n2 n2 with ⟨r3, n3⟩
  have F3 := stripF_facts 3 (by omega) n2 n2 hpos2 le_rfl
  rw [hse3] at F3
  obtain ⟨hm3, hp3, hnd3, hpos3, hle3⟩ := F3
  rcases hse5 : stripF 5 n3 n3 with ⟨r5, n5⟩
  have F5 := stripF_facts 5 (by omega) n3 n3 hpos3 le_rfl
  rw [hse5] at F5
  obtain ⟨hm5, hp5, hnd5, hpos5, hle5⟩ := F5
  simp only [hse2, hse3, hse5] at h
  have hn3d2 : n3 ∣ n2 := ⟨3 ^ r3.length, hp3.symm⟩
  have hn5d3 : n5 ∣ n3 := ⟨5 ^ r5.length, hp5.symm⟩
  have hinv : ∀ p, Nat.Prime p → p < 6 → ¬ p ∣ n5 := by
    intro p hp hlt hdvd
    have h2le := hp.two_le
    interval_cases p
    · exact hnd2 ((hdvd.trans hn5d3).trans hn3d2)
    · exact hnd3 (hdvd.trans hn5d3)
    · exact absurd hp (by decide)
    · exact hnd5 hdvd
  have hacc : ∀ x ∈ r2 ++ r3 ++ r5, Nat.Prime x ∧ x < 6 := by
    intro x hx
    rcases List.mem_append.mp hx with hx' | hx'
    · rcases List.mem_append.mp hx' with h' | h'
      · rw [hm2 x h']; exact ⟨Nat.prime_two, by omega⟩
      · rw [hm3 x h']; exact ⟨Nat.prime_three, by omega⟩
    · rw [hm5 x hx']; exact ⟨by decide, by omega⟩
  have haccs : List.Sorted (· ≤ ·) (r2 ++ r3 ++ r5) := by
    apply List.pairwise_append.mpr
    refine ⟨?_, sorted_of_all_eq _ _ hm5, ?_⟩
    · apply List.pairwise_append.mpr
      refine ⟨sorted_of_all_eq _ _ hm2, sorted_of_all_eq _ _ hm3, ?_⟩
      intro a ha b hb
      rw [hm2 a ha, hm3 b hb]; omega
    · intro a ha b hb
      rw [hm5 b hb]
      rcases List.mem_append.mp ha with h' | h'
      · rw [hm2 a h']; omega
      · rw [hm3 a h']; omega
  obtain ⟨hs, hpr, hext, hexf⟩ := trial_loop_correct bound (bound + 1) n5 6 _
    (r2 ++ r3 ++ r5) hpos5 (p_isqrt_eq_sqrt n5) le_rfl rfl hinv hacc haccs l ex h
  refine ⟨hs, ?_, hext, hexf⟩
  rw [hpr, List.prod_append, List.prod_append,
    List.prod_eq_pow_card r2 _ hm2, List.prod_eq_pow_card r3 _ hm3,
    List.prod_eq_pow_card r5 _ hm5]
  calc 2 ^ r2.length * 3 ^ r3.length * 5 ^ r5.length * n5
      = ((n5 * 5 ^ r5.length) * 3 ^ r3.length) * 2 ^ r2.length := by ring
  _ = n := by rw [hp5, hp3, hp2]

theorem lucas_divisor_scan_eq (n m base : Nat) : ∀ ps : List Nat,
    lucas_divisor_scan n m base ps =
      (if ∃ p ∈ ps, base ^ (m / p) % n = 1 % n then .Unknown else .Prime) := by
  intro ps
  induction ps with
  | nil => simp [lucas_divisor_scan]
  | cons p t ih =>
    by_cases h : base ^ (m / p) % n = 1 % n
    · simp [lucas_divisor_scan, h]
    · simp only [lucas_divisor_scan, if_neg h, ih]
      by_cases h2 : ∃ q ∈ t, base ^ (m / q) % n = 1 % n
      · rw [if_pos h2, if_pos (by exact ⟨h2.choose, List.mem_cons_of_mem p h2.choose_spec.1,
          h2.choose_spec.2⟩)]
      · rw [if_neg h2, if_neg ?_]
        rintro ⟨q, hq, hqe⟩
        rcases List.mem_cons.mp hq with rfl | hq'
        · exact h hqe
        · exact h2 ⟨q, hq', hqe⟩

theorem lucas_prime_unfold (n base : Nat) (ps : List Nat)
    (h : lucas_primality_test n ps base = .Prime) :
    base ^ (n - 1) % n = 1 % n ∧ ∀ p ∈ ps, base ^ ((n - 1) / p) % n ≠ 1 % n := by
  unfold lucas_primality_test at h
  by_cases h1 : base ^ (n - 1) % n ≠ 1 % n
  · rw [if_pos h1] at h
    exact absurd h (by simp)
  · rw [if_neg h1, lucas_divisor_scan_eq] at h
    push_neg at h1
    refine ⟨h1, ?_⟩
    by_cases h2 : ∃ p ∈ ps, base ^ ((n - 1) / p) % n = 1 % n
    · rw [if_pos h2] at h
      exact absurd h (by simp)
    · push_neg at h2
      exact h2

theorem lucas_composite_iff (n base : Nat) (ps : List Nat) :
    lucas_primality_test n ps base = .Composite ↔ base ^ (n - 1) % n ≠ 1 % n := by
  unfold lucas_primality_test
  by_cases h1 : base ^ (n - 1) % n ≠ 1 % n
  · simp [h1]
  · rw [if_neg h1, lucas_divisor_scan_eq]
    by_cases h2 : ∃ p ∈ ps, base ^ ((n - 1) / p) % n = 1 % n
    · simp [h2, h1]
    · simp [h2, h1]

theorem lucas_unknown_iff (n base : Nat) (ps : List Nat) :
    lucas_primality_test n ps base = .Unknown ↔
      (base ^ (n - 1) % n = 1 % n ∧ ∃ p ∈ ps, base ^ ((n - 1) / p) % n = 1 % n) := by
  unfold lucas_primality_test
  by_cases h1 : base ^ (n - 1) % n ≠ 1 % n
  · simp [h1]
  · push_neg at h1
    rw [if_neg (by simp [h1]), lucas_divisor_scan_eq]
    by_cases h2 : ∃ p ∈ ps, base ^ ((n - 1) / p) % n = 1 % n
    · simp [h2, h1]
    · simp [h2, h1]

theorem lucas_prime_iff (n base : Nat) (ps : List Nat) :
    lucas_primality_test n ps base = .Prime ↔
      (base ^ (n - 1) % n = 1 % n ∧ ∀ p ∈ ps, base ^ ((n - 1) / p) % n ≠ 1 % n) := by
  unfold lucas_primality_test
  by_cases h1 : base ^ (n - 1) % n ≠ 1 % n
  · simp [h1]
  · push_neg at h1
    rw [if_neg (by simp [h1]), lucas_divisor_scan_eq]
    by_cases h2 : ∃ p ∈ ps, base ^ ((n - 1) / p) % n = 1 % n
    · simp only [if_pos h2]
      constructor
      · intro h; exact absurd h (by simp)
      · rintro ⟨-, hall⟩
        obtain ⟨p, hp, hpe⟩ := h2
        exact absurd hpe (hall p hp)
    · rw [if_neg h2]
      push_neg at h2
      exact ⟨fun _ => ⟨h1, h2⟩, fun _ => rfl⟩

/-- Claim C3 (code bug): `p_gcd` is claimed to return the greatest common
divisor, with the stripped common power of two multiplied back in.  The
source never multiplies the common factor of two back: at the failing
input `u = v = 2` it returns the gcd of the odd parts, `1`, while
`gcd(2, 2) = 2` (the bignum width, which delegates to the external bignum
gcd, returns `2`). -/
theorem claim_C3_gcd_failing_input :
    p_gcd 2 2 = 1 ∧ Nat.gcd 2 2 = 2 ∧ p_gcd 2 2 ≠ Nat.gcd 2 2 := by decide

/-- Claim C5: for every `n ≥ 2` and every `inclusive_bound`,
`trial_division n inclusive_bound` returns a pair `(list, exhaustive)`
such that the list is non-decreasing and its product is `n`; if
`exhaustive` is true every element is prime; if `exhaustive` is false the
last element is the unfactored residual `> 1` (possibly composite) and
every earlier element is prime. -/
theorem claim_C5_trial_division (n bound : Nat) (hn : 2 ≤ n) :
    ∃ l ex, trial_division n bound = some (l, ex) ∧
      List.Sorted (· ≤ ·) l ∧ l.prod = n ∧
      (ex = true → ∀ x ∈ l, Nat.Prime x) ∧
      (ex = false → ∃ li r, l = li ++ [r] ∧ (∀ x ∈ li, Nat.Prime x) ∧ 1 < r) := by
  have ht := trial_division_total n bound
  rw [Option.isSome_iff_exists] at ht
  obtain ⟨⟨l, ex⟩, hsome⟩ := ht
  exact ⟨l, ex, hsome, trial_division_facts n bound l ex hn hsome⟩

/-- Witness for C5 at `n = 60`, `bound = 4095`. -/
theorem claim_C5_witness :
    ∃ l ex, trial_division 60 4095 = some (l, ex) ∧
      List.Sorted (· ≤ ·) l ∧ l.prod = 60 ∧
      (ex = true → ∀ x ∈ l, Nat.Prime x) ∧
      (ex = false → ∃ li r, l = li ++ [r] ∧ (∀ x ∈ li, Nat.Prime x) ∧ 1 < r) :=
  claim_C5_trial_division 60 4095 (by decide)

/-- Claim C6: for every odd `N > 2`, divisor list and base `b` (with the
divisors nonzero, since the source's integer division would panic on a
zero divisor), `lucas_primality_test` returns `Composite` iff
`b^(N-1) ≢ 1 (mod N)`, otherwise `Unknown` iff some listed `p` has
`b^((N-1)/p) ≡ 1 (mod N)`, otherwise `Prime`; and the two literal
scenarios at `N = 71` hold. -/
theorem claim_C6_lucas_characterisation (n b : Nat) (ps : List Nat)
    (h2 : 2 < n) (hodd : n % 2 = 1) (h0 : 0 ∉ ps) :
    (lucas_primality_test n ps b = .Composite ↔ ¬ Nat.ModEq n (b ^ (n - 1)) 1) ∧
    (lucas_primality_test n ps b = .Unknown ↔
      (Nat.ModEq n (b ^ (n - 1)) 1 ∧ ∃ p ∈ ps, Nat.ModEq n (b ^ ((n - 1) / p)) 1)) ∧
    (lucas_primality_test n ps b = .Prime ↔
      (Nat.ModEq n (b ^ (n - 1)) 1 ∧ ∀ p ∈ ps, ¬ Nat.ModEq n (b ^ ((n - 1) / p)) 1)) ∧
    lucas_primality_test 71 [2, 5, 7] 17 = .Unknown ∧
    lucas_primality_test 71 [2, 5, 7] 11 = .Prime := by
  refine ⟨?_, ?_, ?_, by decide, by decide⟩
  · rw [lucas_composite_iff]
    exact Iff.rfl
  · rw [lucas_unknown_iff]
    exact Iff.rfl
  · rw [lucas_prime_iff]
    exact Iff.rfl

/-- Witness for C6 at `N = 71`, divisors `[2, 5, 7]`, base `17`. -/
theorem claim_C6_witness :
    (lucas_primality_test 71 [2, 5, 7] 17 = .Composite ↔
      ¬ Nat.ModEq 71 (17 ^ (71 - 1)) 1) ∧
    (lucas_primality_test 71 [2, 5, 7] 17 = .Unknown ↔
      (Nat.ModEq 71 (17 ^ (71 - 1)) 1 ∧
        ∃ p ∈ [2, 5, 7], Nat.ModEq 71 (17 ^ ((71 - 1) / p)) 1)) ∧
    (lucas_primality_test 71 [2, 5, 7] 17 = .Prime ↔
      (Nat.ModEq 71 (17 ^ (71 - 1)) 1 ∧
        ∀ p ∈ [2, 5, 7], ¬ Nat.ModEq 71 (17 ^ ((71 - 1) / p)) 1)) ∧
    lucas_primality_test 71 [2, 5, 7] 17 = .Unknown ∧
    lucas_primality_test 71 [2, 5, 7] 11 = .Prime :=
  claim_C6_lucas_characterisation 71 17 [2, 5, 7] (by decide) (by decide) (by decide)

/-- Claim C10: `trial_division` compares the caller's bound against the
wheel round base (a multiple of 6) rather than the tested candidates, so
the returned list can contain a non-final factor above the bound:
`trial_division 143 10 = ([11, 13], exhaustive)` with the non-final
factor `11 > 10`. -/
theorem claim_C10_bound_overshoot :
    trial_division 143 10 = some ([11, 13], true) ∧
    11 ∈ [11, 13].dropLast ∧ 10 < 11 := by decide

/-- Claim C9: a `certified_prime_check` on a number already present in
the caller's certificate returns `true` immediately and leaves the
certificate unchanged, with no primality verification — also for
pre-seeded composite or even `n`. -/
theorem claim_C9_contains_short_circuit (fuel n : Nat) (c : LucasCertificate)
    (h : cert_contains c n = true) :
    certified_prime_check (fuel + 1) n (some c) = .ok (true, some c) := by
  unfold certified_prime_check driver
  simp [driver_step, h]

/-- Witness for C9: the certificate is pre-seeded with the composite
(and even) number 4. -/
theorem claim_C9_witness :
    certified_prime_check 1 4 (some [⟨4, 0, []⟩]) = .ok (true, some [⟨4, 0, []⟩]) :=
  claim_C9_contains_short_circuit 0 4 [⟨4, 0, []⟩] (by decide)

/-- Claim C4 (code bug): `certified_factor(1, …)` is claimed to be total
in both certainty modes.  With `Guaranteed` certainty it returns the
empty list, but in `Certified` mode the source calls
`pre_processed.last().unwrap()` on the empty trial-division result of
`n = 1` and panics, for any caller certificate and any fuel. -/
theorem claim_C4_one_panics :
    (∀ fuel c, certified_factor (fuel + 1) 1 (some c) = .error .panicked) ∧
    (∀ fuel, certified_factor (fuel + 1) 1 none = .ok ([], none)) := by
  have htd : trial_division 1 4095 = some ([], true) := by decide
  constructor
  · intro fuel c
    unfold certified_factor driver
    simp [driver_step, htd, cpc_each]
  · intro fuel
    unfold certified_factor driver
    simp [driver_step, htd]

/-- Claim C8: when a `u128` input fits in a `u64` the driver downshifts:
`certified_factor` delegates to the `u64` path (elementwise widening
`u64 → u128` being the identity in the `Nat` model) and `is_prime`
agrees with the deterministic `u64` check.  The `+1` on the fuel of the
`u128` run accounts for the downshift dispatch step of the model. -/
theorem claim_C8_downshift (fuel n : Nat) (c : Option LucasCertificate)
    (h : n < u64_size) :
    certified_factor_u128 (fuel + 1) n c = certified_factor fuel n c ∧
    is_prime_u128 fuel n = .ok (is_prime n) := by
  constructor
  · unfold certified_factor_u128 certified_factor driver128
    simp [driver128_step, h]
  · unfold is_prime_u128
    rw [if_pos h]

/-- Witness for C8 at the source's own doc-test input `n = 10987081`. -/
theorem claim_C8_witness :
    certified_factor_u128 41 10987081 (some []) = certified_factor 40 10987081 (some []) ∧
    is_prime_u128 40 10987081 = .ok (is_prime 10987081) :=
  claim_C8_downshift 40 10987081 (some []) (by decide)

/-- Claim C7 counterexample: the claimed schedule — mask
`(1 << max(5, bitlen(power)/2)) - 1` at every width — does not match the
code.  At `(power, count) = (32, 15)` the bignum checker (mask exponent
`max(4, tz/2)`) performs the gcd check and stops on a non-trivial gcd,
although the claimed `max(5, ·)` formula (under either reading of
`bitlen`) selects no check there; and at `(power, count) = (2048, 2015)`
the `u64` checker checks although the claimed formula with `bitlen` read
as the number of significant bits selects no check. -/
theorem claim_C7_counterexample :
    (check_rug 9 ⟨3, 0, 0⟩ 4 5 15 32).1 = true ∧
    spec_gcd_check_condition 32 15 = false ∧
    rug_gcd_check_condition 32 15 = true ∧
    u64_gcd_check_condition 32 15 = false ∧
    u64_gcd_check_condition 2048 2015 = true ∧
    spec_gcd_check_condition 2048 2015 = false := by decide

/-- Claim C7 amended: at the primitive widths the cycle checker computes
`gcd(A, N)` exactly at the steps with
`(power - count) & ((1 << max(5, power.trailing_zeros()/2)) - 1) == 1`,
and at the bignum width exactly at those with mask exponent
`max(4, power.trailing_zeros()/2)`; at every step the tortoise is
recorded as `last_tortoise` and the distance is multiplied into the
accumulator; the hare is recorded as `last_hare` exactly at the gcd
checks that find a trivial gcd (a non-trivial gcd stops the search with
`last_hare` unchanged). -/
theorem claim_C7_amended (n : Nat) (st : RhoState) (tortoise hare count power : Nat) :
    ((check_u64 n st tortoise hare count power).2.last_tortoise = tortoise ∧
     (check_u64 n st tortoise hare count power).2.accum =
       st.accum * rho_dist hare tortoise % n ∧
     ((check_u64 n st tortoise hare count power).1 = true ↔
       (u64_gcd_check_condition power count = true ∧
        p_gcd (st.accum * rho_dist hare tortoise % n) n ≠ 1)) ∧
     (check_u64 n st tortoise hare count power).2.last_hare =
       (if u64_gcd_check_condition power count = true ∧
           p_gcd (st.accum * rho_dist hare tortoise % n) n = 1
        then hare else st.last_hare)) ∧
    ((check_rug n st tortoise hare count power).2.last_tortoise = tortoise ∧
     (check_rug n st tortoise hare count power).2.accum =
       st.accum * rho_dist hare tortoise % n ∧
     ((check_rug n st tortoise hare count power).1 = true ↔
       (rug_gcd_check_condition power count = true ∧
        Nat.gcd (st.accum * rho_dist hare tortoise % n) n ≠ 1)) ∧
     (check_rug n st tortoise hare count power).2.last_hare =
       (if rug_gcd_check_condition power count = true ∧
           Nat.gcd (st.accum * rho_dist hare tortoise % n) n = 1
        then hare else st.last_hare)) := by
  constructor
  · by_cases hc : u64_gcd_check_condition power count = true
    · by_cases hg : p_gcd (st.accum * rho_dist hare tortoise % n) n = 1
      · simp [check_u64, hc, hg]
      · simp [check_u64, hc, hg]
    · simp [check_u64, hc]
  · by_cases hc : rug_gcd_check_condition power count = true
    · by_cases hg : Nat.gcd (st.accum * rho_dist hare tortoise % n) n = 1
      · simp [check_rug, hc, hg]
      · simp [check_rug, hc, hg]
    · simp [check_rug, hc]

theorem mr_square_loop_hits (n : Nat) : ∀ k bp,
    (∃ j, 1 ≤ j ∧ j ≤ k ∧ (fun x => x * x % n)^[j] bp = (n - 1) % n) →
    mr_square_loop n k bp = .MaybePrime := by
  intro k
  induction k with
  | zero =>
    rintro bp ⟨j, hj1, hj2, -⟩
    omega
  | succ k ih =>
    rintro bp ⟨j, hj1, hj2, hj⟩
    simp only [mr_square_loop]
    by_cases h : bp * bp % n = (n - 1) % n
    · rw [if_pos h]
    · rw [if_neg h]
      have hj2' : 2 ≤ j := by
        rcases Nat.eq_or_lt_of_le hj1 with h1 | h1
        · exfalso
          rw [← h1, Function.iterate_one] at hj
          exact h hj
        · omega
      apply ih
      refine ⟨j - 1, by omega, by omega, ?_⟩
      have hjj : j = (j - 1) + 1 := by omega
      rw [hjj, Function.iterate_succ_apply] at hj
      exact hj

theorem pow_iter_sq (n b d : Nat) : ∀ j,
    (fun x => x * x % n)^[j] (b ^ d % n) = b ^ (d * 2 ^ j) % n := by
  intro j
  induction j with
  | zero => simp
  | succ j ih =>
    rw [Function.iterate_succ_apply', ih]
    show b ^ (d * 2 ^ j) % n * (b ^ (d * 2 ^ j) % n) % n = b ^ (d * 2 ^ (j + 1)) % n
    rw [← Nat.mul_mod, ← pow_add]
    congr 1
    ring



theorem miller_rabin_complete (p b : Nat) (hp : Nat.Prime p) :
    miller_rabin p b ≠ .Composite := by
  by_cases hp2 : p = 2
  · simp [miller_rabin, hp2]
  · have hodd : p % 2 = 1 := Nat.odd_iff.mp (hp.odd_of_ne_two hp2)
    have hp3 : 3 ≤ p := by
      have := hp.two_le
      omega
    unfold miller_rabin
    simp only [if_neg hp2, if_neg (show ¬ p % 2 = 0 by omega)]
    obtain ⟨hsd, hdodd⟩ := tz_spec (p - 1) (by omega)
    set s := tz (p - 1) with hs
    set d := (p - 1) >>> s with hd
    have hs1 : 1 ≤ s := by
      by_contra h
      have hs0 : s = 0 := by omega
      rw [hs0, pow_zero, one_mul] at hsd
      omega
    by_cases hb0 : b % p = 0
    · rw [if_pos hb0]
      simp
    · rw [if_neg hb0]
      haveI : Fact p.Prime := ⟨hp⟩
      have hx0 : (b : ZMod p) ≠ 0 := by
        rw [Ne, ZMod.natCast_zmod_eq_zero_iff_dvd]
        rintro ⟨k, hk⟩
        exact hb0 (by rw [hk, Nat.mul_mod_right])
      have hcast : ∀ e : Nat, ((b ^ e : Nat) : ZMod p) = (b : ZMod p) ^ e := by
        intro e
        push_cast
        ring
      have hmodeq : ∀ e : Nat, ((b % p) ^ e % p = 1 % p) ↔ (b : ZMod p) ^ e = 1 := by
        intro e
        rw [← Nat.pow_mod]
        constructor
        · intro h
          have h2 := (ZMod.natCast_eq_natCast_iff' (b ^ e) 1 p).mpr h
          rwa [hcast, Nat.cast_one] at h2
        · intro h
          refine (ZMod.natCast_eq_natCast_iff' (b ^ e) 1 p).mp ?_
          rw [hcast, Nat.cast_one]
          exact h
      have hneg : ((p - 1 : Nat) : ZMod p) = -1 := by
        have h0 : ((p : Nat) : ZMod p) = 0 := ZMod.natCast_self p
        have h1 : ((p - 1 : Nat) : ZMod p) = ((p : Nat) : ZMod p) - 1 := by
          rw [Nat.cast_sub (by omega : 1 ≤ p), Nat.cast_one]
        rw [h1, h0]
        ring
      have hmodneg : ∀ e : Nat,
          ((b % p) ^ e % p = (p - 1) % p) ↔ (b : ZMod p) ^ e = -1 := by
        intro e
        rw [← Nat.pow_mod]
        constructor
        · intro h
          have h2 := (ZMod.natCast_eq_natCast_iff' (b ^ e) (p - 1) p).mpr h
          rwa [hcast, hneg] at h2
        · intro h
          refine (ZMod.natCast_eq_natCast_iff' (b ^ e) (p - 1) p).mp ?_
          rw [hcast, hneg]
          exact h
      have hferm : (b : ZMod p) ^ (d * 2 ^ s) = 1 := by
        have hde : d * 2 ^ s = p - 1 := by
          rw [Nat.mul_comm]
          exact hsd
        rw [hde]
        exact ZMod.pow_card_sub_one_eq_one hx0
      obtain ⟨J, hJP, hJmin⟩ :
          ∃ J, (b : ZMod p) ^ (d * 2 ^ J) = 1 ∧
            ∀ i, i < J → ¬ (b : ZMod p) ^ (d * 2 ^ i) = 1 := by
        classical
        have hexists : ∃ j, (b : ZMod p) ^ (d * 2 ^ j) = 1 := ⟨s, hferm⟩
        exact ⟨Nat.find hexists, Nat.find_spec hexists,
          fun i hi => Nat.find_min hexists hi⟩
      have hJle : J ≤ s := by
        by_contra h
        exact hJmin s (by omega) hferm
      rcases Nat.eq_zero_or_pos J with hJ0 | hJ0pos
      · have hc1 : (b % p) ^ d % p = 1 % p := by
          apply (hmodeq d).mpr
          have h2 := hJP
          rw [hJ0, pow_zero, Nat.mul_one] at h2
          exact h2
        rw [if_pos hc1]
        simp
      · have hJ0 : J ≠ 0 := by omega
        have hylt : ¬ (b : ZMod p) ^ (d * 2 ^ (J - 1)) = 1 :=
          hJmin (J - 1) (by omega)
        have h2J : 2 ^ J = 2 ^ (J - 1) * 2 := by
          conv_lhs => rw [← Nat.sub_add_cancel (show 1 ≤ J by omega)]
          rw [pow_succ]
        have hysq : ((b : ZMod p) ^ (d * 2 ^ (J - 1))) *
            ((b : ZMod p) ^ (d * 2 ^ (J - 1))) = 1 := by
          rw [← pow_add]
          have he : d * 2 ^ (J - 1) + d * 2 ^ (J - 1) = d * 2 ^ J := by
            rw [h2J]
            ring
          rw [he]
          exact hJP
        have hyneg : (b : ZMod p) ^ (d * 2 ^ (J - 1)) = -1 :=
          (mul_self_eq_one_iff.mp hysq).resolve_left hylt
        by_cases hc1 : (b % p) ^ d % p = 1 % p
        · rw [if_pos hc1]
          simp
        · rw [if_neg hc1]
          by_cases hc2 : (b % p) ^ d % p = (p - 1) % p
          · rw [if_pos hc2]
            simp
          · rw [if_neg hc2]
            have hJ2 : 2 ≤ J := by
              by_contra h
              have hJ1 : J = 1 := by omega
              apply hc2
              apply (hmodneg d).mpr
              have h2 := hyneg
              rw [hJ1] at h2
              simpa using h2
            have hloop : mr_square_loop p (s - 1) ((b % p) ^ d % p) = .MaybePrime := by
              apply mr_square_loop_hits
              refine ⟨J - 1, by omega, by omega, ?_⟩
              rw [pow_iter_sq]
              exact (hmodneg (d * 2 ^ (J - 1))).mpr hyneg
            rw [hloop]
            simp

theorem is_prime_complete (p : Nat) (hp : Nat.Prime p) : is_prime p = true := by
  unfold is_prime
  rw [List.all_eq_true]
  intro b hb
  simpa using miller_rabin_complete p b hp

theorem rust_dedup_mem : ∀ l : List Nat, ∀ x, x ∈ rust_dedup l ↔ x ∈ l := by
  intro l
  induction l with
  | nil => intro x; simp [rust_dedup]
  | cons a t ih =>
    intro x
    rcases t with _ | ⟨b, r⟩
    · simp [rust_dedup]
    · by_cases h : a = b
      · simp only [rust_dedup, if_pos h, ih]
        subst h
        simp
      · simp only [rust_dedup, if_neg h]
        rw [List.mem_cons, ih, List.mem_cons]
        simp

theorem strip_all_facts (p m : Nat) (hp : 2 ≤ p) (hm : 0 < m) :
    strip_all p m ∣ m ∧ ¬ p ∣ strip_all p m ∧ 0 < strip_all p m := by
  obtain ⟨-, hprod, hnd, hpos, -⟩ := stripF_facts p hp m m hm le_rfl
  exact ⟨⟨p ^ (stripF p m m).1.length, hprod.symm⟩, hnd, hpos⟩

theorem strip_list_eq_one : ∀ ps : List Nat, ∀ m, 0 < m →
    (∀ p ∈ ps, Nat.Prime p) →
    (∀ q, Nat.Prime q → q ∣ m → ∃ p ∈ ps, q ∣ p) →
    strip_list ps m = 1 := by
  intro ps
  induction ps with
  | nil =>
    intro m hm _ hq
    by_contra hne
    have hne' : m ≠ 1 := by simpa [strip_list] using hne
    have hm2 : 2 ≤ m := by omega
    obtain ⟨p, hp, -⟩ := hq (Nat.minFac m) (Nat.minFac_prime (by omega)) (Nat.minFac_dvd m)
    simp at hp
  | cons p ps ih =>
    intro m hm hprime hq
    have hp : Nat.Prime p := hprime p (List.mem_cons_self p ps)
    obtain ⟨hdvd, hnd, hpos⟩ := strip_all_facts p m hp.two_le hm
    simp only [strip_list]
    refine ih (strip_all p m) hpos
      (fun x hx => hprime x (List.mem_cons_of_mem p hx)) ?_
    intro q hqp hqd
    obtain ⟨x, hx, hxd⟩ := hq q hqp (hqd.trans hdvd)
    rcases List.mem_cons.mp hx with h' | hx'
    · exfalso
      have hqx : q = p := (Nat.prime_dvd_prime_iff_eq hqp hp).mp (h' ▸ hxd)
      exact hnd (hqx ▸ hqd)
    · exact ⟨x, hx', hxd⟩

theorem strip_list_dvd_of_eq_one : ∀ ps : List Nat, ∀ m, 0 < m →
    strip_list ps m = 1 →
    ∀ q, Nat.Prime q → q ∣ m → ∃ p ∈ ps, q ∣ p := by
  intro ps
  induction ps with
  | nil =>
    intro m hm hstrip q hq hqd
    have hm1 : m = 1 := by simpa [strip_list] using hstrip
    subst hm1
    exact absurd (Nat.eq_one_of_dvd_one hqd) hq.ne_one
  | cons p ps ih =>
    intro m hm hstrip q hq hqd
    simp only [strip_list] at hstrip
    by_cases hp2 : 2 ≤ p
    · obtain ⟨-, hprod, -, hpos, -⟩ := stripF_facts p hp2 m m hm le_rfl
      have hqd' : q ∣ strip_all p m * p ^ (stripF p m m).1.length := by
        rw [strip_all, hprod]
        exact hqd
      rcases (Nat.Prime.dvd_mul hq).mp hqd' with h | h
      · obtain ⟨x, hx, hxd⟩ := ih (strip_all p m) hpos hstrip q hq h
        exact ⟨x, List.mem_cons_of_mem p hx, hxd⟩
      · exact ⟨p, List.mem_cons_self p ps, hq.dvd_of_dvd_pow h⟩
    · -- p ∈ {0, 1}: stripping by 0 changes nothing (m % 0 = m ≠ 0), and
      -- stripping by 1 divides by 1 until the fuel runs out, keeping m.
      have hsa : strip_all p m = m := by
        by_cases hp0 : p = 0
        · subst hp0
          unfold strip_all
          rcases m with _ | m'
          · omega
          · simp [stripF]
        · have hp1 : p = 1 := by omega
          subst hp1
          unfold strip_all
          have hstrip1 : ∀ fu n, (stripF 1 fu n).2 = n := by
            intro fu
            induction fu with
            | zero => intro n; rfl
            | succ fu ihf =>
              intro n
              simp only [stripF]
              split
              · simpa using ihf (n / 1)
              · rfl
          rw [hstrip1]
      rw [hsa] at hstrip
      obtain ⟨x, hx, hxd⟩ := ih m hm hstrip q hq hqd
      exact ⟨x, List.mem_cons_of_mem p hx, hxd⟩

theorem cert_contains_iff (c : LucasCertificate) (n : Nat) :
    cert_contains c n = true ↔ ∃ e ∈ c, e.n = n := by
  unfold cert_contains
  rw [List.any_eq_true]
  constructor
  · rintro ⟨e, he, hd⟩
    exact ⟨e, he, by simpa using hd⟩
  · rintro ⟨e, he, hd⟩
    exact ⟨e, he, by simpa using hd⟩

theorem mem_cert_insert (e : LucasCertificateElement) :
    ∀ c : LucasCertificate, ∀ e', e' ∈ cert_insert e c ↔ e' = e ∨ e' ∈ c := by
  intro c
  induction c with
  | nil => intro e'; simp [cert_insert]
  | cons x xs ih =>
    intro e'
    by_cases h : e.n < x.n
    · simp [cert_insert, if_pos h]
    · simp only [cert_insert, if_neg h, List.mem_cons, ih]
      tauto

theorem cert_push_mem_of_mem (c : LucasCertificate) (e e' : LucasCertificateElement)
    (h : e' ∈ c) : e' ∈ cert_push c e := by
  unfold cert_push
  by_cases hc : cert_contains c e.n
  · rwa [if_pos hc]
  · rw [if_neg hc, mem_cert_insert]
    right
    exact h

theorem cert_push_cases (c : LucasCertificate) (e e' : LucasCertificateElement)
    (h : e' ∈ cert_push c e) : e' = e ∨ e' ∈ c := by
  unfold cert_push at h
  by_cases hc : cert_contains c e.n
  · rw [if_pos hc] at h
    right
    exact h
  · rw [if_neg hc, mem_cert_insert] at h
    exact h

theorem cert_insert_sorted (e : LucasCertificateElement) :
    ∀ c : LucasCertificate, cert_sorted c → (∀ x ∈ c, x.n ≠ e.n) →
    cert_sorted (cert_insert e c) := by
  intro c
  induction c with
  | nil => intro _ _; simp [cert_insert, cert_sorted]
  | cons x xs ih =>
    intro hs hne
    by_cases h : e.n < x.n
    · simp only [cert_insert, if_pos h]
      exact List.Chain'.cons h hs
    · simp only [cert_insert, if_neg h]
      have hgt : x.n < e.n := by
        have := hne x (List.mem_cons_self x xs)
        omega
      have hs' : cert_sorted xs := hs.tail
      have hrec := ih hs' (fun y hy => hne y (List.mem_cons_of_mem x hy))
      rcases xs with _ | ⟨y, ys⟩
      · simp only [cert_insert]
        exact List.chain'_pair.mpr hgt
      · by_cases hy : e.n < y.n
        · simp only [cert_insert, if_pos hy] at hrec ⊢
          exact List.Chain'.cons hgt hrec
        · simp only [cert_insert, if_neg hy] at hrec ⊢
          have hxy : x.n < y.n := (List.chain'_cons.mp hs).1
          exact List.Chain'.cons hxy hrec

theorem cert_push_sorted (c : LucasCertificate) (e : LucasCertificateElement)
    (hs : cert_sorted c) : cert_sorted (cert_push c e) := by
  unfold cert_push
  by_cases hc : cert_contains c e.n
  · rwa [if_pos hc]
  · rw [if_neg hc]
    refine cert_insert_sorted e c hs ?_
    intro x hx hxe
    exact hc ((cert_contains_iff c e.n).mpr ⟨x, hx, hxe⟩)

theorem good_element_mono (c c' : LucasCertificate) (e : LucasCertificateElement)
    (hg : good_element c e) (hsub : ∀ x ∈ c, x ∈ c') : good_element c' e := by
  obtain ⟨h1, h2, h3⟩ := hg
  refine ⟨h1, h2, fun hgt => ?_⟩
  obtain ⟨hb, hps, hstrip⟩ := h3 hgt
  refine ⟨hb, ?_, hstrip⟩
  intro p hp
  obtain ⟨hne, hp2, hplt, e', he', hen⟩ := hps p hp
  exact ⟨hne, hp2, hplt, e', hsub e' he', hen⟩

theorem valid_cert_push (c : LucasCertificate) (e : LucasCertificateElement)
    (hc : valid_cert c) (hg : good_element (cert_push c e) e) :
    valid_cert (cert_push c e) := by
  obtain ⟨hs, hall⟩ := hc
  refine ⟨cert_push_sorted c e hs, ?_⟩
  intro x hx
  rcases cert_push_cases c e x hx with rfl | hx'
  · exact hg
  · exact good_element_mono c (cert_push c e) x (hall x hx')
      (fun y hy => cert_push_mem_of_mem c e y hy)

theorem valid_cert_prime (c : LucasCertificate) (hc : valid_cert c) :
    ∀ e ∈ c, Nat.Prime e.n := by
  suffices H : ∀ m, ∀ e ∈ c, e.n = m → Nat.Prime m by
    intro e he
    exact H e.n e he rfl
  intro m
  induction m using Nat.strong_induction_on with
  | _ m ih =>
    intro e he hm
    obtain ⟨h2le, h2eq, hgt⟩ := hc.2 e he
    rcases Nat.lt_or_ge 2 e.n with hlt | hle
    · obtain ⟨hb, hps, hstrip⟩ := hgt hlt
      have hupd_prime : ∀ p ∈ e.unique_prime_divisors, Nat.Prime p := by
        intro p hp
        obtain ⟨-, hp2, hplt, e', he', hen⟩ := hps p hp
        exact ih p (by omega) e' he' hen
      have hfac : ∀ q, Nat.Prime q → q ∣ e.n - 1 → q ∈ e.unique_prime_divisors := by
        intro q hq hqd
        obtain ⟨p, hp, hqp⟩ := strip_list_dvd_of_eq_one e.unique_prime_divisors
          (e.n - 1) (by omega) hstrip q hq hqd
        have : q = p := (Nat.prime_dvd_prime_iff_eq hq (hupd_prime p hp)).mp hqp
        rwa [this]
      subst hm
      haveI : NeZero e.n := ⟨by omega⟩
      apply lucas_primality e.n (e.base : ZMod e.n)
      · have hcast := (ZMod.natCast_eq_natCast_iff' (e.base ^ (e.n - 1)) 1 e.n).mpr
          (by rw [hb, Nat.mod_eq_of_lt (show 1 < e.n by omega)])
        rw [Nat.cast_pow, Nat.cast_one] at hcast
        exact hcast
      · intro q hq hqd
        have hqin := hfac q hq hqd
        obtain ⟨hne, -, -, -⟩ := hps q hqin
        intro hcontra
        apply hne
        have : ((e.base ^ ((e.n - 1) / q) : Nat) : ZMod e.n) = ((1 : Nat) : ZMod e.n) := by
          rw [Nat.cast_pow, Nat.cast_one]
          exact hcontra
        have hfin := (ZMod.natCast_eq_natCast_iff' _ _ _).mp this
        rwa [Nat.mod_eq_of_lt (show 1 < e.n by omega)] at hfin
    · have h2 : m = 2 := by omega
      rw [h2]
      exact Nat.prime_two

theorem rho_extractF_facts (n inc lt : Nat) (hn : 0 < n) : ∀ fu h d,
    rho_extractF n inc lt fu h = .ok d → d ∣ n ∧ d ≠ 1 := by
  intro fu
  induction fu with
  | zero =>
    intro h d hres
    exact absurd hres (by simp [rho_extractF])
  | succ fu ih =>
    intro h d hres
    simp only [rho_extractF] at hres
    by_cases hd : p_gcd ((if h > lt then h - lt else lt - h) % n) n ≠ 1
    · rw [if_pos hd] at hres
      have hde : p_gcd ((if h > lt then h - lt else lt - h) % n) n = d := by
        injection hres
      exact hde ▸ ⟨p_gcd_dvd_right _ n hn, hd⟩
    · rw [if_neg hd] at hres
      exact ih _ d hres

theorem pollard_rho_facts (fuel n s i d : Nat) (hn : 0 < n)
    (hres : pollard_rho fuel n s i = .ok (some d)) : d ∣ n ∧ d ≠ n ∧ d ≠ 1 := by
  unfold pollard_rho at hres
  dsimp only at hres
  split at hres
  · exact absurd hres (by simp)
  · rename_i st hcyc
    split at hres
    · exact absurd hres (by simp)
    · rename_i d' hext
      split at hres
      · exact absurd hres (by simp)
      · rename_i hdn
        have hdd : d' = d := by
          injection hres with h1
          injection h1
        subst hdd
        obtain ⟨h1, h2⟩ := rho_extractF_facts n (i % n) st.last_tortoise hn fuel
          (rho_map n (i % n) st.last_hare) d' hext
        exact ⟨h1, hdn, h2⟩

theorem list_decomp_getLast (l : List Nat) (a : Nat) (h : l.getLast? = some a) :
    l = l.dropLast ++ [a] := by
  rcases List.eq_nil_or_concat l with rfl | ⟨l', b, rfl⟩
  · simp at h
  · rw [List.concat_eq_append] at h ⊢
    rw [List.getLast?_concat] at h
    injection h with h
    rw [List.dropLast_concat, h]

theorem lucas_one (w : Nat) : lucas_primality_test 1 [0] w = .Unknown := by
  simp [lucas_primality_test, lucas_divisor_scan, Nat.mod_one]

theorem driver_cf_zero : ∀ fuel c l copt, (∀ e ∈ c, 2 ≤ e.n) →
    driver fuel (.cf 0 (some c)) = .ok (.factors l copt) →
    l = [0] ∧ copt = some c := by
  intro fuel
  induction fuel with
  | zero =>
    intro c l copt _ h
    exact absurd h (by simp [driver])
  | succ f ihf =>
    intro c l copt hc h
    have htd : trial_division 0 4095 = some ([0], true) := by decide
    have hcont : cert_contains c 0 = false := by
      by_contra hct
      rw [Bool.not_eq_false] at hct
      obtain ⟨e, he, hen⟩ := (cert_contains_iff c 0).mp hct
      have := hc e he
      omega
    rcases f with _ | f'
    · rw [driver] at h
      simp only [driver_step, htd, cpc_each, List.dropLast_single,
        List.getLast?_singleton] at h
      have hd0 : driver 0 (.cpc 0 (some c)) = .error .outOfFuel := rfl
      rw [hd0] at h
      exact absurd h (by simp)
    · have hcpc : driver (f' + 1) (.cpc 0 (some c)) = .ok (.decision false (some c)) := by
        rw [driver]
        simp only [driver_step, hcont, Bool.false_eq_true, if_false,
          (by decide : is_prime 0 = false)]
        rfl
      rw [driver] at h
      simp only [driver_step, htd, cpc_each, List.dropLast_single,
        List.getLast?_singleton, hcpc] at h
      have hinj : DriverAns.factors [0] (some c) = DriverAns.factors l copt := by
        injection h
      injection hinj with h1 h2
      exact ⟨h1.symm, h2.symm⟩

theorem sort_unstable_perm (l : List Nat) : List.Perm (sort_unstable l) l :=
  List.perm_insertionSort _ l

theorem sort_unstable_sorted (l : List Nat) : List.Sorted (· ≤ ·) (sort_unstable l) :=
  List.sorted_insertionSort _ l

theorem cert_push_has (c : LucasCertificate) (e : LucasCertificateElement) :
    ∃ x ∈ cert_push c e, x.n = e.n := by
  unfold cert_push
  by_cases hc : cert_contains c e.n
  · rw [if_pos hc]
    exact (cert_contains_iff c e.n).mp hc
  · rw [if_neg hc]
    exact ⟨e, (mem_cert_insert e c e).mpr (Or.inl rfl), rfl⟩

theorem cpc_each_inv (rec : DriverReq → Except RunError DriverAns)
    (Hcpc : ∀ n c0 b copt, valid_cert c0 →
      rec (.cpc n (some c0)) = .ok (.decision b copt) →
      ∃ c', copt = some c' ∧ valid_cert c' ∧ (∀ x ∈ c0, x ∈ c') ∧
        (b = true → ∃ e ∈ c', e.n = n) ∧ (Nat.Prime n → b = true)) :
    ∀ ps c0 c1, valid_cert c0 → cpc_each rec ps c0 = .ok c1 →
      valid_cert c1 ∧ (∀ x ∈ c0, x ∈ c1) ∧
      (∀ p ∈ ps, Nat.Prime p → ∃ e ∈ c1, e.n = p) := by
  intro ps
  induction ps with
  | nil =>
    intro c0 c1 hv h
    simp only [cpc_each] at h
    have hc : c0 = c1 := by injection h
    subst hc
    exact ⟨hv, fun x hx => hx, by simp⟩
  | cons p ps ih =>
    intro c0 c1 hv h
    simp only [cpc_each] at h
    split at h
    · rename_i b c' hr
      obtain ⟨c'', hceq, hvc, hsub, hbmem, hprime⟩ := Hcpc p c0 b (some c') hv hr
      have hcc : c'' = c' := by injection hceq with h1; exact h1.symm
      subst hcc
      obtain ⟨hvI, hsubI, hmemI⟩ := ih c'' c1 hvc h
      refine ⟨hvI, fun x hx => hsubI _ (hsub x hx), ?_⟩
      intro q hq hqp
      rcases List.mem_cons.mp hq with rfl | hq'
      · obtain ⟨e, he, hen⟩ := hbmem (hprime hqp)
        exact ⟨e, hsubI e he, hen⟩
      · exact hmemI q hq' hqp
    · exact absurd h (by simp)
    · exact absurd h (by simp)

set_option maxHeartbeats 3200000 in
theorem driver_invariant : ∀ fuel,
    (∀ n c0 l copt, 2 ≤ n → valid_cert c0 →
      driver fuel (.cf n (some c0)) = .ok (.factors l copt) →
      ∃ c', copt = some c' ∧ valid_cert c' ∧ (∀ x ∈ c0, x ∈ c') ∧
        l.prod = n ∧ List.Sorted (· ≤ ·) l ∧ (∀ x ∈ l, 2 ≤ x) ∧
        (∀ x ∈ l, ∃ e ∈ c', e.n = x)) ∧
    (∀ n c0 b copt, valid_cert c0 →
      driver fuel (.cpc n (some c0)) = .ok (.decision b copt) →
      ∃ c', copt = some c' ∧ valid_cert c' ∧ (∀ x ∈ c0, x ∈ c') ∧
        (b = true → ∃ e ∈ c', e.n = n) ∧ (Nat.Prime n → b = true)) ∧
    (∀ stack primes inc c0 l copt, valid_cert c0 →
      (∀ x ∈ stack, 2 ≤ x) → (∀ x ∈ primes, 2 ≤ x) →
      (∀ x ∈ primes, ∃ e ∈ c0, e.n = x) →
      driver fuel (.ploop stack primes inc (some c0)) = .ok (.factors l copt) →
      ∃ c', copt = some c' ∧ valid_cert c' ∧ (∀ x ∈ c0, x ∈ c') ∧
        l.prod = stack.prod * primes.prod ∧ (∀ x ∈ l, 2 ≤ x) ∧
        (∀ x ∈ l, ∃ e ∈ c', e.n = x)) ∧
    (∀ n fs base w, driver fuel (.lsearch n fs base) = .ok (.witness w) →
      lucas_primality_test n fs w = .Prime) := by
  intro fuel
  induction fuel with
  | zero =>
    refine ⟨?_, ?_, ?_, ?_⟩
    · intro n c0 l copt _ _ h; exact absurd h (by simp [driver])
    · intro n c0 b copt _ h; exact absurd h (by simp [driver])
    · intro stack primes inc c0 l copt _ _ _ _ h; exact absurd h (by simp [driver])
    · intro n fs base w h; exact absurd h (by simp [driver])
  | succ fuel ih =>
    obtain ⟨ihcf, ihcpc, ihploop, ihls⟩ := ih
    refine ⟨?_, ?_, ?_, ?_⟩
    · -- certified_factor
      intro n c0 l copt hn2 hvc h
      rw [driver] at h
      simp only [driver_step] at h
      rcases htd : trial_division n 4095 with _ | ⟨pre, ex⟩
      · simp [htd] at h
      simp only [htd] at h
      obtain ⟨hsort, hprod, hext, hexf⟩ := trial_division_facts n 4095 pre ex hn2 htd
      rcases hcpe : cpc_each (driver fuel) pre.dropLast c0 with e' | c1
      · simp [hcpe] at h
      simp only [hcpe] at h
      obtain ⟨hvc1, hsub1, hmem1⟩ := cpc_each_inv (driver fuel) ihcpc pre.dropLast c0 c1 hvc hcpe
      rcases hgl : pre.getLast? with _ | last
      · have hnil : pre = [] := by rwa [List.getLast?_eq_none_iff] at hgl
        rw [hnil] at hprod
        simp at hprod
        omega
      have hdecomp := list_decomp_getLast pre last hgl
      by_cases hex : ex = true
      · -- exhaustive: all of pre is prime
        simp only [if_pos hex, hgl] at h
        have hpr_all := hext hex
        rcases hcl : driver fuel (.cpc last (some c1)) with e2 | a2
        · simp [hcl] at h
        rcases a2 with ⟨l2, c2o⟩ | ⟨b2, c2o⟩ | w2
        · simp [hcl] at h
        · rcases c2o with _ | c2
          · simp [hcl] at h
          · simp only [hcl, if_pos hex] at h
            obtain ⟨c', hc'eq, hvc', hsub', hb2, hpr2⟩ := ihcpc last c1 b2 (some c2) hvc1 hcl
            have hcc : c2 = c' := by injection hc'eq
            subst hcc
            have hinj : DriverAns.factors pre (some c2) = DriverAns.factors l copt := by
              injection h
            injection hinj with h1 h2
            subst h1
            refine ⟨c2, h2.symm, hvc', fun x hx => hsub' x (hsub1 x hx), hprod, hsort,
              fun x hx => (hpr_all x hx).two_le, ?_⟩
            intro x hx
            rw [hdecomp] at hx
            rcases List.mem_append.mp hx with hx' | hx'
            · obtain ⟨e, he, hen⟩ := hmem1 x hx' (hpr_all x (List.mem_of_mem_dropLast hx'))
              exact ⟨e, hsub' e he, hen⟩
            · have hxl : x = last := by simpa using hx'
              subst hxl
              have hplast : Nat.Prime x := hpr_all x (by rw [hdecomp]; simp)
              exact hb2 (hpr2 hplast)
        · simp [hcl] at h
      · -- not exhaustive: last element is the residual (> 1), dropLast all prime
        have hexF : ex = false := by revert hex; rcases ex <;> simp
        simp only [if_neg hex, hgl] at h
        obtain ⟨li, r, hpre_eq, hli_pr, hr1⟩ := hexf hexF
        have hlastr : r = last := by
          rw [hpre_eq, List.getLast?_concat] at hgl
          injection hgl
        subst hlastr
        have hdl : pre.dropLast = li := by rw [hpre_eq, List.dropLast_concat]
        rcases hcl : driver fuel (.cpc r (some c1)) with e2 | a2
        · simp [hcl] at h
        rcases a2 with ⟨l2, c2o⟩ | ⟨b2, c2o⟩ | w2
        · simp [hcl] at h
        · obtain ⟨c', hc'eq, hvc', hsub', hb2, hpr2⟩ := ihcpc r c1 b2 c2o hvc1 hcl
          subst hc'eq
          rcases b2 with _ | _
          · -- decision false: pollard loop on [r]
            simp only [hcl] at h
            rcases hpl : driver fuel (.ploop [r] pre.dropLast 1 (some c')) with e3 | a3
            · simp [hpl] at h
            rcases a3 with ⟨l3, c3o⟩ | ⟨b3, c3o⟩ | w3
            · simp only [hpl] at h
              obtain ⟨c'', hc''eq, hvc'', hsub'', hprod3, h2le3, hmem3⟩ :=
                ihploop [r] pre.dropLast 1 c' l3 c3o hvc'
                  (by intro x hx; simp at hx; omega)
                  (by rw [hdl]; intro x hx; exact (hli_pr x hx).two_le)
                  (by
                    rw [hdl]
                    intro x hx
                    obtain ⟨e, he, hen⟩ := hmem1 x (by rw [hdl]; exact hx) (hli_pr x hx)
                    exact ⟨e, hsub' e he, hen⟩) hpl
              have hinj : DriverAns.factors (sort_unstable l3) c3o =
                  DriverAns.factors l copt := by injection h
              injection hinj with h1 h2
              subst h1
              refine ⟨c'', h2 ▸ hc''eq, hvc'', fun x hx => hsub'' x (hsub' x (hsub1 x hx)),
                ?_, sort_unstable_sorted l3, ?_, ?_⟩
              · rw [(sort_unstable_perm l3).prod_eq, hprod3, hdl]
                rw [hpre_eq] at hprod
                rw [← hprod]
                simp [List.prod_append, Nat.mul_comm]
              · intro x hx
                exact h2le3 x ((sort_unstable_perm l3).mem_iff.mp hx)
              · intro x hx
                exact hmem3 x ((sort_unstable_perm l3).mem_iff.mp hx)
            · simp [hpl] at h
            · simp [hpl] at h
          · -- decision true: r certified prime, return pre
            simp only [hcl] at h
            have hinj : DriverAns.factors pre (some c') = DriverAns.factors l copt := by
              injection h
            injection hinj with h1 h2
            subst h1
            refine ⟨c', h2.symm, hvc', fun x hx => hsub' x (hsub1 x hx), hprod, hsort,
              ?_, ?_⟩
            · intro x hx
              rw [hpre_eq] at hx
              rcases List.mem_append.mp hx with hx' | hx'
              · exact (hli_pr x hx').two_le
              · have : x = r := by simpa using hx'
                omega
            · intro x hx
              rw [hpre_eq] at hx
              rcases List.mem_append.mp hx with hx' | hx'
              · obtain ⟨e, he, hen⟩ := hmem1 x (by rw [hdl]; exact hx') (hli_pr x hx')
                exact ⟨e, hsub' e he, hen⟩
              · have hxr : x = r := by simpa using hx'
                subst hxr
                exact hb2 rfl
        · simp [hcl] at h
    · -- certified_prime_check
      intro n c0 b copt hvc h
      rw [driver] at h
      simp only [driver_step] at h
      by_cases hcont : cert_contains c0 n = true
      · rw [if_pos hcont] at h
        have hinj : DriverAns.decision true (some c0) = DriverAns.decision b copt := by
          injection h
        injection hinj with hb hcopt
        exact ⟨c0, hcopt.symm, hvc, fun x hx => hx,
          fun _ => (cert_contains_iff c0 n).mp hcont, fun _ => hb.symm⟩
      · rw [if_neg hcont] at h
        by_cases hn2 : n = 2
        · rw [if_pos hn2] at h
          have hinj : DriverAns.decision true (some (cert_push c0 sentinel_element)) =
              DriverAns.decision b copt := by injection h
          injection hinj with hb hcopt
          subst hn2
          have hgood : good_element (cert_push c0 sentinel_element) sentinel_element :=
            ⟨by decide, fun _ => rfl, fun hlt => absurd hlt (by decide)⟩
          exact ⟨cert_push c0 sentinel_element, hcopt.symm,
            valid_cert_push c0 sentinel_element hvc hgood,
            fun x hx => cert_push_mem_of_mem c0 sentinel_element x hx,
            fun _ => cert_push_has c0 sentinel_element, fun _ => hb.symm⟩
        · rw [if_neg hn2] at h
          by_cases hip : is_prime n = true
          · rw [if_neg (not_not_intro hip)] at h
            rcases Nat.lt_or_ge n 3 with hlt3 | hge3
            · -- n ∈ {0, 1}
              have h01 : n = 0 ∨ n = 1 := by omega
              rcases h01 with rfl | rfl
              · exact absurd hip (by decide)
              · -- n = 1: the lucas search can never succeed
                simp only [Nat.sub_self] at h
                rcases hcf : driver fuel (.cf 0 (some c0)) with e2 | a2
                · simp [hcf] at h
                rcases a2 with ⟨l2, c2o⟩ | ⟨b2, c2o⟩ | w2
                · rcases c2o with _ | c1
                  · simp [hcf] at h
                  · simp only [hcf] at h
                    have hz := driver_cf_zero fuel c0 l2 (some c1)
                      (fun e he => (hvc.2 e he).1) hcf
                    obtain ⟨hl2, hc1⟩ := hz
                    subst hl2
                    rcases hls : driver fuel (.lsearch 1 (rust_dedup [0]) 2) with e3 | a3
                    · simp [hls] at h
                    rcases a3 with ⟨l3, c3o⟩ | ⟨b3, c3o⟩ | w3
                    · simp [hls] at h
                    · simp [hls] at h
                    · have hlp := ihls 1 (rust_dedup [0]) 2 w3 hls
                      have h00 : rust_dedup ([0] : List Nat) = [0] := rfl
                      rw [h00, lucas_one w3] at hlp
                      exact absurd hlp (by simp)
                · simp [hcf] at h
                · simp [hcf] at h
            · -- main path, n ≥ 3
              rcases hcf : driver fuel (.cf (n - 1) (some c0)) with e2 | a2
              · simp [hcf] at h
              rcases a2 with ⟨l2, c2o⟩ | ⟨b2, c2o⟩ | w2
              · rcases c2o with _ | c1
                · simp [hcf] at h
                · simp only [hcf] at h
                  obtain ⟨c', hc'eq, hvc1, hsub1, hprodl, hsortl, h2lel, hmeml⟩ :=
                    ihcf (n - 1) c0 l2 (some c1) (by omega) hvc hcf
                  have hcc : c1 = c' := by injection hc'eq
                  subst hcc
                  rcases hls : driver fuel (.lsearch n (rust_dedup l2) 2) with e3 | a3
                  · simp [hls] at h
                  rcases a3 with ⟨l3, c3o⟩ | ⟨b3, c3o⟩ | w3
                  · simp [hls] at h
                  · simp [hls] at h
                  · simp only [hls] at h
                    have hlp := ihls n (rust_dedup l2) 2 w3 hls
                    obtain ⟨hfermat, hstrict⟩ := lucas_prime_unfold n w3 (rust_dedup l2) hlp
                    have h1n : 1 % n = 1 := Nat.mod_eq_of_lt (by omega)
                    rw [h1n] at hfermat
                    have hdvd_all : ∀ p ∈ rust_dedup l2, 2 ≤ p ∧ p < n := by
                      intro p hp
                      have hpl : p ∈ l2 := (rust_dedup_mem l2 p).mp hp
                      have hdvd : p ∣ l2.prod := List.dvd_prod hpl
                      rw [hprodl] at hdvd
                      have := Nat.le_of_dvd (by omega) hdvd
                      exact ⟨h2lel p hpl, by omega⟩
                    have hpr_all : ∀ p ∈ rust_dedup l2, Nat.Prime p := by
                      intro p hp
                      obtain ⟨e, he, hen⟩ := hmeml p ((rust_dedup_mem l2 p).mp hp)
                      exact hen ▸ valid_cert_prime c1 hvc1 e he
                    have hgood : good_element (cert_push c1 ⟨n, w3, rust_dedup l2⟩)
                        ⟨n, w3, rust_dedup l2⟩ := by
                      refine ⟨show 2 ≤ n by omega,
                        fun h2 => absurd (show n = 2 from h2) (by omega), fun _ => ?_⟩
                      refine ⟨hfermat, ?_, ?_⟩
                      · intro p hp
                        obtain ⟨hp2, hplt⟩ := hdvd_all p hp
                        obtain ⟨e, he, hen⟩ := hmeml p ((rust_dedup_mem l2 p).mp hp)
                        exact ⟨by rw [h1n] at hstrict; exact hstrict p hp, hp2, hplt,
                          e, cert_push_mem_of_mem c1 _ e he, hen⟩
                      · refine strip_list_eq_one (rust_dedup l2) (n - 1) (by omega)
                          hpr_all ?_
                        intro q hq hqdvd
                        rw [← hprodl] at hqdvd
                        obtain ⟨a, ha, hqa⟩ := (hq.prime.dvd_prod_iff).mp hqdvd
                        exact ⟨a, (rust_dedup_mem l2 a).mpr ha, hqa⟩
                    have hinj : DriverAns.decision true
                        (some (cert_push c1 ⟨n, w3, rust_dedup l2⟩)) =
                        DriverAns.decision b copt := by injection h
                    injection hinj with hb hcopt
                    refine ⟨cert_push c1 ⟨n, w3, rust_dedup l2⟩, hcopt.symm,
                      valid_cert_push c1 _ hvc1 hgood,
                      fun x hx => cert_push_mem_of_mem c1 _ x (hsub1 x hx),
                      fun _ => cert_push_has c1 ⟨n, w3, rust_dedup l2⟩,
                      fun _ => hb.symm⟩
              · simp [hcf] at h
              · simp [hcf] at h
          · rw [if_pos hip] at h
            have hinj : DriverAns.decision false (some c0) = DriverAns.decision b copt := by
              injection h
            injection hinj with hb hcopt
            refine ⟨c0, hcopt.symm, hvc, fun x hx => hx, fun hbt => ?_, fun hpn => ?_⟩
            · rw [← hb] at hbt; exact absurd hbt (by simp)
            · exact absurd (is_prime_complete n hpn) hip
    · -- pollard loop
      intro stack primes inc c0 l copt hvc hst hpr hprm h
      rw [driver] at h
      simp only [driver_step] at h
      rcases hgl : stack.getLast? with _ | cur
      · simp only [hgl] at h
        have hnil : stack = [] := by rwa [List.getLast?_eq_none_iff] at hgl
        have hinj : DriverAns.factors primes (some c0) = DriverAns.factors l copt := by
          injection h
        injection hinj with h1 h2
        subst h1
        exact ⟨c0, h2.symm, hvc, fun x hx => hx, by rw [hnil]; simp, hpr, hprm⟩
      have hcur_mem : cur ∈ stack := by
        rw [list_decomp_getLast stack cur hgl]; simp
      have hcur2 : 2 ≤ cur := hst cur hcur_mem
      rcases hrho : pollard_rho fuel cur 2 inc with e2 | f?
      · simp [hgl, hrho] at h
      rcases f? with _ | f
      · simp only [hgl, hrho] at h
        exact ihploop stack primes (inc + 1) c0 l copt hvc hst hpr hprm h
      simp only [hgl, hrho] at h
      obtain ⟨hdvd, hne, hne1⟩ := pollard_rho_facts fuel cur 2 inc f (by omega) hrho
      have hf2 : 2 ≤ f := by
        have hf0 : f ≠ 0 := by
          rintro rfl
          have := Nat.eq_zero_of_zero_dvd hdvd
          omega
        omega
      have hother : f * (cur / f) = cur := Nat.mul_div_cancel' hdvd
      obtain ⟨o, hoeq⟩ : ∃ o, cur / f = o := ⟨_, rfl⟩
      rw [hoeq] at hother h
      have ho2 : 2 ≤ o := by
        have hz : o ≠ 0 := by
          rintro rfl; rw [Nat.mul_zero] at hother; omega
        have ho1 : o ≠ 1 := by
          rintro rfl; rw [Nat.mul_one] at hother; exact hne hother
        omega
      rcases hcpf : driver fuel (.cpc f (some c0)) with e3 | a3
      · simp [hcpf] at h
      rcases a3 with ⟨l3, c3o⟩ | ⟨bf, c3o⟩ | w3
      · simp [hcpf] at h
      swap
      · simp [hcpf] at h
      simp only [hcpf] at h
      obtain ⟨c1, hc1eq, hvc1, hsub1, hbf_mem, hbf_pr⟩ := ihcpc f c0 bf c3o hvc hcpf
      subst hc1eq
      rcases hcpo : driver fuel (.cpc o (some c1)) with e4 | a4
      · simp [hcpo] at h
      rcases a4 with ⟨l4, c4o⟩ | ⟨bo, c4o⟩ | w4
      · simp [hcpo] at h
      swap
      · simp [hcpo] at h
      simp only [hcpo] at h
      obtain ⟨c2, hc2eq, hvc2, hsub2, hbo_mem, hbo_pr⟩ := ihcpc o c1 bo c4o hvc1 hcpo
      subst hc2eq
      have hside1 : ∀ x ∈ (if bo then
            (if bf then stack.dropLast else stack.dropLast ++ [f])
          else (if bf then stack.dropLast else stack.dropLast ++ [f]) ++ [o]), 2 ≤ x := by
        intro x hx
        have hx' : x ∈ stack.dropLast ∨ x = f ∨ x = o := by
          rcases bo <;> rcases bf <;> simp at hx <;> tauto
        rcases hx' with hx' | rfl | rfl
        · exact hst x (List.mem_of_mem_dropLast hx')
        · exact hf2
        · exact ho2
      have hside2 : ∀ x ∈ (if bo then
            (if bf then primes ++ [f] else primes) ++ [o]
          else (if bf then primes ++ [f] else primes)), 2 ≤ x := by
        intro x hx
        have hx' : x ∈ primes ∨ x = f ∨ x = o := by
          rcases bo <;> rcases bf <;> simp at hx <;> tauto
        rcases hx' with hx' | rfl | rfl
        · exact hpr x hx'
        · exact hf2
        · exact ho2
      have hside3 : ∀ x ∈ (if bo then
            (if bf then primes ++ [f] else primes) ++ [o]
          else (if bf then primes ++ [f] else primes)), ∃ e ∈ c2, e.n = x := by
        intro x hx
        have hx' : x ∈ primes ∨ (x = f ∧ bf = true) ∨ (x = o ∧ bo = true) := by
          rcases bo <;> rcases bf <;> simp at hx <;> tauto
        rcases hx' with hx' | ⟨rfl, hbf⟩ | ⟨rfl, hbo⟩
        · obtain ⟨e, he, hen⟩ := hprm x hx'
          exact ⟨e, hsub2 e (hsub1 e he), hen⟩
        · obtain ⟨e, he, hen⟩ := hbf_mem hbf
          exact ⟨e, hsub2 e he, hen⟩
        · obtain ⟨e, he, hen⟩ := hbo_mem hbo
          exact ⟨e, he, hen⟩
      obtain ⟨c'', hc''eq, hvc'', hsub'', hprod'', h2le'', hmem''⟩ :=
        ihploop _ _ inc c2 l copt hvc2 hside1 hside2 hside3 h
      have hSdecomp : stack = stack.dropLast ++ [cur] := list_decomp_getLast stack cur hgl
      refine ⟨c'', hc''eq, hvc'', fun x hx => hsub'' x (hsub2 x (hsub1 x hx)), ?_,
        h2le'', hmem''⟩
      rw [hprod'']
      conv_rhs => rw [hSdecomp]
      rcases bo <;> rcases bf <;>
        simp only [Bool.false_eq_true, eq_self_iff_true, if_true, if_false,
          List.prod_append, List.prod_cons, List.prod_nil] <;>
        rw [← hother] <;> ring
    · -- lucas base search
      intro n fs base w h
      rw [driver] at h
      simp only [driver_step] at h
      rcases hlt : lucas_primality_test n fs base with _ | _ | _
      · simp only [hlt] at h
        have hw : base = w := by
          have hinj : DriverAns.witness base = DriverAns.witness w := by injection h
          injection hinj
        rw [← hw]
        exact hlt
      · simp [hlt] at h
      · simp only [hlt] at h
        exact ihls n fs (base + 1) w h

theorem valid_cert_nil : valid_cert ([] : LucasCertificate) :=
  ⟨List.chain'_nil, by simp⟩

theorem valid_cert_invariants (c : LucasCertificate) (h : valid_cert c) :
    cert_invariants c := by
  obtain ⟨hs, hall⟩ := h
  refine ⟨hs, fun e he => ?_⟩
  obtain ⟨h2, heq2, hgt⟩ := hall e he
  refine ⟨heq2, fun hlt => ?_⟩
  obtain ⟨hb, hps, hstrip⟩ := hgt hlt
  have h1n : 1 % e.n = 1 := Nat.mod_eq_of_lt (by omega)
  refine ⟨?_, ?_, hstrip⟩
  · show e.base ^ (e.n - 1) % e.n = 1 % e.n
    rw [h1n, hb]
  · intro p hp
    obtain ⟨hne, hp2, hplt, e', he', hen⟩ := hps p hp
    refine ⟨?_, e', he', hen, by omega⟩
    intro hmod
    have : e.base ^ ((e.n - 1) / p) % e.n = 1 % e.n := hmod
    rw [h1n] at this
    exact hne this

/-- C2 (counterexample to the claim as stated): the claim quantifies the
Lucas conditions over *every* element "including the `n == 2` sentinel
element", but the sentinel `{n:2, base:1, unique_prime_divisors:[1]}` —
which `generate_lucas_certificate 2` really returns, at the `u64` width
and, through `check_two`, at the wide (`u128`/bignum) width — violates
the condition `base^((n-1)/p) ≢ 1 (mod n)` at its sole listed divisor
`p = 1`: `1^((2-1)/1) = 1 ≡ 1 (mod 2)`. -/
theorem claim_C2_counterexample :
    generate_lucas_certificate 20 2 = .ok (some [sentinel_element]) ∧
    generate_lucas_certificate_u128 21 2 = .ok (some [sentinel_element]) ∧
    (1 : Nat) ∈ sentinel_element.unique_prime_divisors ∧
    Nat.ModEq sentinel_element.n
      (sentinel_element.base ^ ((sentinel_element.n - 1) / 1)) 1 :=
  ⟨by rfl, by rfl, by decide, by decide⟩

theorem trial_loop_bounds (bound : Nat) : ∀ fu n cf maxpf acc,
    0 < n → maxpf = Nat.sqrt n → 6 ≤ cf → (∀ x ∈ acc, x ≤ cf + 5) →
    ∀ l ex, trial_loop bound fu n cf maxpf acc = some (l, ex) →
      (∀ x ∈ l.dropLast, x ≤ cf + 6 * fu + 5) ∧
      (ex = true → ∀ x ∈ l, x ≤ (cf + 6 * fu + 5) * (cf + 6 * fu + 5)) := by
  intro fu
  induction fu with
  | zero => intro n cf maxpf acc _ _ _ _ l ex hres; simp [trial_loop] at hres
  | succ fu ih =>
    intro n cf maxpf acc hn hmax hcf6 hacc l ex hres
    rcases hse1 : stripF (cf + 1) n n with ⟨l1, n1⟩
    have F1 := stripF_facts (cf + 1) (by omega) n n hn le_rfl
    rw [hse1] at F1
    obtain ⟨hm1, -, -, hpos1, -⟩ := F1
    rcases hse2 : stripF (cf + 5) n1 n1 with ⟨l2, n2⟩
    have F2 := stripF_facts (cf + 5) (by omega) n1 n1 hpos1 le_rfl
    rw [hse2] at F2
    obtain ⟨hm2, -, -, hpos2, -⟩ := F2
    have hacc' : ∀ x ∈ acc ++ l1 ++ l2, x ≤ cf + 5 := by
      intro x hx
      rcases List.mem_append.mp hx with hx' | hx'
      · rcases List.mem_append.mp hx' with h1 | h1
        · exact hacc x h1
        · rw [hm1 x h1]; omega
      · rw [hm2 x hx']
    simp only [trial_loop, hse1, hse2] at hres
    by_cases hone : n2 = 1
    · rw [if_pos hone] at hres
      obtain ⟨hl, hex⟩ := Prod.mk.injEq .. ▸ (Option.some.injEq _ _ ▸ hres)
      subst hl hex
      constructor
      · intro x hx
        have := hacc' x (List.mem_of_mem_dropLast hx)
        omega
      · intro _ x hx
        have h1 := hacc' x hx
        have h2 : cf + 6 * (fu + 1) + 5 ≤
            (cf + 6 * (fu + 1) + 5) * (cf + 6 * (fu + 1) + 5) :=
          Nat.le_mul_of_pos_left _ (by omega)
        omega
    · rw [if_neg hone] at hres
      have hmax' :
          (if (decide (n2 ≠ n) : Bool) = true then p_integer_square_root n2 else maxpf)
            = Nat.sqrt n2 := by
        by_cases hch : n2 = n
        · simp [hch, hmax, p_isqrt_eq_sqrt]
        · simp [hch, p_isqrt_eq_sqrt]
      rw [hmax'] at hres
      by_cases hsq : cf > Nat.sqrt n2
      · rw [if_pos hsq] at hres
        obtain ⟨hl, hex⟩ := Prod.mk.injEq .. ▸ (Option.some.injEq _ _ ▸ hres)
        subst hl hex
        have hn2lt : n2 < cf * cf := by
          have h1 : n2 < (Nat.sqrt n2 + 1) * (Nat.sqrt n2 + 1) := by
            have := Nat.lt_succ_sqrt' n2
            rw [pow_two] at this
            exact this
          have h2 : (Nat.sqrt n2 + 1) * (Nat.sqrt n2 + 1) ≤ cf * cf :=
            Nat.mul_le_mul (by omega) (by omega)
          omega
        constructor
        · intro x hx
          rw [List.dropLast_concat] at hx
          have := hacc' x hx
          omega
        · intro _ x hx
          rcases List.mem_append.mp hx with h | h
          · have h1 := hacc' x h
            have h2 : cf + 6 * (fu + 1) + 5 ≤
                (cf + 6 * (fu + 1) + 5) * (cf + 6 * (fu + 1) + 5) :=
              Nat.le_mul_of_pos_left _ (by omega)
            omega
          · have hxe : x = n2 := by simpa using h
            subst hxe
            have hcfB : cf * cf ≤ (cf + 6 * (fu + 1) + 5) * (cf + 6 * (fu + 1) + 5) :=
              Nat.mul_le_mul (by omega) (by omega)
            omega
      · rw [if_neg hsq] at hres
        by_cases hbd : cf > bound
        · rw [if_pos hbd] at hres
          obtain ⟨hl, hex⟩ := Prod.mk.injEq .. ▸ (Option.some.injEq _ _ ▸ hres)
          subst hl hex
          refine ⟨?_, by simp⟩
          intro x hx
          rw [List.dropLast_concat] at hx
          have := hacc' x hx
          omega
        · rw [if_neg hbd] at hres
          obtain ⟨h1, h2⟩ := ih n2 (cf + 6) (Nat.sqrt n2) (acc ++ l1 ++ l2) (by omega) rfl
            (by omega) (fun x hx => by have := hacc' x hx; omega) l ex hres
          constructor
          · intro x hx
            have := h1 x hx
            omega
          · intro hext x hx
            have h3 := h2 hext x hx
            have hmono : (cf + 6 + 6 * fu + 5) * (cf + 6 + 6 * fu + 5) ≤
                (cf + 6 * (fu + 1) + 5) * (cf + 6 * (fu + 1) + 5) :=
              Nat.mul_le_mul (by omega) (by omega)
            omega

theorem trial_division_bounds (n : Nat) (l : List Nat) (ex : Bool)
    (hn : 0 < n) (h : trial_division n 4095 = some (l, ex)) :
    (∀ x ∈ l.dropLast, x < u64_size) ∧
    (ex = true → ∀ x ∈ l, x < u64_size) := by
  unfold trial_division p_trial_division at h
  rcases hse2 : stripF 2 n n with ⟨r2, m2⟩
  have F2 := stripF_facts 2 le_rfl n n hn le_rfl
  rw [hse2] at F2
  obtain ⟨hm2, -, -, hpos2, -⟩ := F2
  rcases hse3 : stripF 3 m2 m2 with ⟨r3, m3⟩
  have F3 := stripF_facts 3 (by omega) m2 m2 hpos2 le_rfl
  rw [hse3] at F3
  obtain ⟨hm3, -, -, hpos3, -⟩ := F3
  rcases hse5 : stripF 5 m3 m3 with ⟨r5, m5⟩
  have F5 := stripF_facts 5 (by omega) m3 m3 hpos3 le_rfl
  rw [hse5] at F5
  obtain ⟨hm5, -, -, hpos5, -⟩ := F5
  simp only [hse2, hse3, hse5] at h
  have hacc : ∀ x ∈ r2 ++ r3 ++ r5, x ≤ 6 + 5 := by
    intro x hx
    rcases List.mem_append.mp hx with hx' | hx'
    · rcases List.mem_append.mp hx' with h1 | h1
      · rw [hm2 x h1]; omega
      · rw [hm3 x h1]; omega
    · rw [hm5 x hx']; omega
  obtain ⟨h1, h2⟩ := trial_loop_bounds 4095 4096 m5 6 _ (r2 ++ r3 ++ r5)
    hpos5 (p_isqrt_eq_sqrt m5) le_rfl hacc l ex h
  have hB : (6 + 6 * 4096 + 5) * (6 + 6 * 4096 + 5) < u64_size := by
    norm_num [u64_size]
  constructor
  · intro x hx
    have := h1 x hx
    have := Nat.le_mul_of_pos_left (6 + 6 * 4096 + 5)
      (show 0 < 6 + 6 * 4096 + 5 by omega)
    omega
  · intro hext x hx
    have := h2 hext x hx
    omega

theorem good_push (c : LucasCertificate) (n w : Nat) (fs : List Nat)
    (hval : valid_cert c) (h2 : 2 < n)
    (hf : ∀ p ∈ fs, 2 ≤ p ∧ p < n ∧ ∃ e ∈ c, e.n = p)
    (hstrip : strip_list fs (n - 1) = 1)
    (hlp : lucas_primality_test n fs w = .Prime) :
    valid_cert (cert_push c ⟨n, w, fs⟩) ∧
    (∀ x ∈ c, x ∈ cert_push c ⟨n, w, fs⟩) ∧
    (∃ e ∈ cert_push c ⟨n, w, fs⟩, e.n = n) := by
  obtain ⟨hfermat, hstrict⟩ := lucas_prime_unfold n w fs hlp
  have h1n : 1 % n = 1 := Nat.mod_eq_of_lt (by omega)
  rw [h1n] at hfermat
  have hgood : good_element (cert_push c ⟨n, w, fs⟩) ⟨n, w, fs⟩ := by
    refine ⟨show 2 ≤ n by omega,
      fun hh => absurd (show n = 2 from hh) (by omega), fun _ => ?_⟩
    refine ⟨hfermat, ?_, hstrip⟩
    intro p hp
    obtain ⟨hp2, hplt, e, he, hen⟩ := hf p hp
    refine ⟨?_, hp2, hplt, e, cert_push_mem_of_mem c _ e he, hen⟩
    have := hstrict p hp
    rw [h1n] at this
    exact this
  exact ⟨valid_cert_push c _ hval hgood,
    fun x hx => cert_push_mem_of_mem c _ x hx,
    cert_push_has c ⟨n, w, fs⟩⟩

theorem delayed_lucas_scan_inv : ∀ bs n factors c0 ob copt,
    valid_cert c0 → 2 < n →
    (∀ p ∈ factors, 2 ≤ p ∧ p < n ∧ ∃ e ∈ c0, e.n = p) →
    strip_list factors (n - 1) = 1 →
    delayed_lucas_scan n factors (some c0) bs = (ob, copt) →
    ∃ cc, copt = some cc ∧ valid_cert cc ∧ (∀ x ∈ c0, x ∈ cc) ∧
      (ob = some true → ∃ e ∈ cc, e.n = n) := by
  intro bs
  induction bs with
  | nil =>
    intro n factors c0 ob copt hv h2 hf hs h
    simp only [delayed_lucas_scan] at h
    injection h with h1 h2'
    subst h1 h2'
    exact ⟨c0, rfl, hv, fun x hx => hx, by simp⟩
  | cons b bs ih =>
    intro n factors c0 ob copt hv h2 hf hs h
    simp only [delayed_lucas_scan] at h
    rcases hlt : lucas_primality_test n factors b with _ | _ | _
    · simp only [hlt] at h
      injection h with h1 h2'
      subst h1 h2'
      obtain ⟨hvp, hsubp, hhas⟩ := good_push c0 n b factors hv h2 hf hs hlt
      exact ⟨cert_push c0 ⟨n, b, factors⟩, rfl, hvp, hsubp, fun _ => hhas⟩
    · simp only [hlt] at h
      injection h with h1 h2'
      subst h1 h2'
      exact ⟨c0, rfl, hv, fun x hx => hx, by simp⟩
    · simp only [hlt] at h
      exact ih n factors c0 ob copt hv h2 hf hs h

theorem cpc_each128_inv (rec : Driver128Req → Except RunError DriverAns)
    (Hcpc : ∀ n c0 b copt, valid_cert c0 →
      rec (.cpc n (some c0)) = .ok (.decision b copt) →
      ∃ c', copt = some c' ∧ valid_cert c' ∧ (∀ x ∈ c0, x ∈ c') ∧
        (b = true → ∃ e ∈ c', e.n = n) ∧
        (Nat.Prime n → n < u64_size → b = true)) :
    ∀ ps c0 c1, valid_cert c0 → cpc_each128 rec ps c0 = .ok c1 →
      valid_cert c1 ∧ (∀ x ∈ c0, x ∈ c1) ∧
      (∀ p ∈ ps, Nat.Prime p → p < u64_size → ∃ e ∈ c1, e.n = p) := by
  intro ps
  induction ps with
  | nil =>
    intro c0 c1 hv h
    simp only [cpc_each128] at h
    have hc : c0 = c1 := by injection h
    subst hc
    exact ⟨hv, fun x hx => hx, by simp⟩
  | cons p ps ih =>
    intro c0 c1 hv h
    simp only [cpc_each128] at h
    split at h
    · rename_i b c' hr
      obtain ⟨c'', hceq, hvc, hsub, hbmem, hprime⟩ := Hcpc p c0 b (some c') hv hr
      have hcc : c'' = c' := by injection hceq with h1; exact h1.symm
      subst hcc
      obtain ⟨hvI, hsubI, hmemI⟩ := ih c'' c1 hvc h
      refine ⟨hvI, fun x hx => hsubI _ (hsub x hx), ?_⟩
      intro q hq hqp hqs
      rcases List.mem_cons.mp hq with rfl | hq'
      · obtain ⟨e, he, hen⟩ := hbmem (hprime hqp hqs)
        exact ⟨e, hsubI e he, hen⟩
      · exact hmemI q hq' hqp hqs
    · exact absurd h (by simp)
    · exact absurd h (by simp)

set_option maxHeartbeats 3200000 in
theorem driver128_invariant : ∀ fuel,
    (∀ n c0 l copt, 2 ≤ n → valid_cert c0 →
      driver128 fuel (.cf n (some c0)) = .ok (.factors l copt) →
      ∃ c', copt = some c' ∧ valid_cert c' ∧ (∀ x ∈ c0, x ∈ c') ∧
        l.prod = n ∧ List.Sorted (· ≤ ·) l ∧ (∀ x ∈ l, 2 ≤ x) ∧
        (∀ x ∈ l, ∃ e ∈ c', e.n = x)) ∧
    (∀ n c0 b copt, valid_cert c0 →
      driver128 fuel (.cpc n (some c0)) = .ok (.decision b copt) →
      ∃ c', copt = some c' ∧ valid_cert c' ∧ (∀ x ∈ c0, x ∈ c') ∧
        (b = true → ∃ e ∈ c', e.n = n) ∧
        (Nat.Prime n → n < u64_size → b = true)) ∧
    (∀ stack primes inc c0 l copt, valid_cert c0 →
      (∀ x ∈ stack, 2 ≤ x) → (∀ x ∈ primes, 2 ≤ x) →
      (∀ x ∈ primes, ∃ e ∈ c0, e.n = x) →
      driver128 fuel (.ploop stack primes inc (some c0)) = .ok (.factors l copt) →
      ∃ c', copt = some c' ∧ valid_cert c' ∧ (∀ x ∈ c0, x ∈ c') ∧
        l.prod = stack.prod * primes.prod ∧ (∀ x ∈ l, 2 ≤ x) ∧
        (∀ x ∈ l, ∃ e ∈ c', e.n = x)) ∧
    (∀ n base divisors c0 b copt, valid_cert c0 → 2 < n →
      (∀ p ∈ divisors, 2 ≤ p ∧ p < n ∧ ∃ e ∈ c0, e.n = p) →
      strip_list divisors (n - 1) = 1 →
      driver128 fuel (.mll n base divisors (some c0)) = .ok (.decision b copt) →
      ∃ c', copt = some c' ∧ valid_cert c' ∧ (∀ x ∈ c0, x ∈ c') ∧
        (b = true → ∃ e ∈ c', e.n = n)) := by
  intro fuel
  induction fuel with
  | zero =>
    refine ⟨?_, ?_, ?_, ?_⟩
    · intro n c0 l copt _ _ h; exact absurd h (by simp [driver128])
    · intro n c0 b copt _ h; exact absurd h (by simp [driver128])
    · intro stack primes inc c0 l copt _ _ _ _ h; exact absurd h (by simp [driver128])
    · intro n base divisors c0 b copt _ _ _ _ h; exact absurd h (by simp [driver128])
  | succ fuel ih =>
    obtain ⟨ihcf, ihcpc, ihploop, ihmll⟩ := ih
    have h64 : u64_size = 18446744073709551616 := by norm_num [u64_size]
    refine ⟨?_, ?_, ?_, ?_⟩
    · -- u128 certified_factor
      intro n c0 l copt hn2 hvc h
      rw [driver128] at h
      simp only [driver128_step] at h
      by_cases hsm : n < u64_size
      · rw [if_pos hsm] at h
        exact (driver_invariant fuel).1 n c0 l copt hn2 hvc h
      · rw [if_neg hsm] at h
        rcases htd : trial_division n 4095 with _ | ⟨pre, ex⟩
        · simp [htd] at h
        simp only [htd] at h
        obtain ⟨hsort, hprod, hext, hexf⟩ := trial_division_facts n 4095 pre ex hn2 htd
        obtain ⟨hbd1, hbdall⟩ := trial_division_bounds n pre ex (by omega) htd
        rcases hcpe : cpc_each128 (driver128 fuel) pre.dropLast c0 with e' | c1
        · simp [hcpe] at h
        simp only [hcpe] at h
        obtain ⟨hvc1, hsub1, hmem1⟩ :=
          cpc_each128_inv (driver128 fuel) ihcpc pre.dropLast c0 c1 hvc hcpe
        rcases hgl : pre.getLast? with _ | last
        · have hnil : pre = [] := by rwa [List.getLast?_eq_none_iff] at hgl
          rw [hnil] at hprod
          simp at hprod
          omega
        have hdecomp := list_decomp_getLast pre last hgl
        by_cases hex : ex = true
        · -- exhaustive: all of pre is prime and below 2^64
          simp only [if_pos hex, hgl] at h
          have hpr_all := hext hex
          have hsm_all := hbdall hex
          rcases hcl : driver128 fuel (.cpc last (some c1)) with e2 | a2
          · simp [hcl] at h
          rcases a2 with ⟨l2, c2o⟩ | ⟨b2, c2o⟩ | w2
          · simp [hcl] at h
          · rcases c2o with _ | c2
            · simp [hcl] at h
            · simp only [hcl, if_pos hex] at h
              obtain ⟨c', hc'eq, hvc', hsub', hb2, hpr2⟩ := ihcpc last c1 b2 (some c2) hvc1 hcl
              have hcc : c2 = c' := by injection hc'eq
              subst hcc
              have hinj : DriverAns.factors pre (some c2) = DriverAns.factors l copt := by
                injection h
              injection hinj with h1 h2
              subst h1
              refine ⟨c2, h2.symm, hvc', fun x hx => hsub' x (hsub1 x hx), hprod, hsort,
                fun x hx => (hpr_all x hx).two_le, ?_⟩
              intro x hx
              rw [hdecomp] at hx
              rcases List.mem_append.mp hx with hx' | hx'
              · obtain ⟨e, he, hen⟩ := hmem1 x hx'
                  (hpr_all x (List.mem_of_mem_dropLast hx'))
                  (hbd1 x hx')
                exact ⟨e, hsub' e he, hen⟩
              · have hxl : x = last := by simpa using hx'
                subst hxl
                have hplast : Nat.Prime x := hpr_all x (by rw [hdecomp]; simp)
                have hslast : x < u64_size := hsm_all x (by rw [hdecomp]; simp)
                exact hb2 (hpr2 hplast hslast)
          · simp [hcl] at h
        · -- not exhaustive: last element is the residual (> 1), dropLast all prime
          have hexF : ex = false := by revert hex; rcases ex <;> simp
          simp only [if_neg hex, hgl] at h
          obtain ⟨li, r, hpre_eq, hli_pr, hr1⟩ := hexf hexF
          have hlastr : r = last := by
            rw [hpre_eq, List.getLast?_concat] at hgl
            injection hgl
          subst hlastr
          have hdl : pre.dropLast = li := by rw [hpre_eq, List.dropLast_concat]
          rcases hcl : driver128 fuel (.cpc r (some c1)) with e2 | a2
          · simp [hcl] at h
          rcases a2 with ⟨l2, c2o⟩ | ⟨b2, c2o⟩ | w2
          · simp [hcl] at h
          · obtain ⟨c', hc'eq, hvc', hsub', hb2, hpr2⟩ := ihcpc r c1 b2 c2o hvc1 hcl
            subst hc'eq
            rcases b2 with _ | _
            · -- decision false: pollard loop on [r]
              simp only [hcl] at h
              rcases hpl : driver128 fuel (.ploop [r] pre.dropLast 1 (some c')) with e3 | a3
              · simp [hpl] at h
              rcases a3 with ⟨l3, c3o⟩ | ⟨b3, c3o⟩ | w3
              · simp only [hpl] at h
                obtain ⟨c'', hc''eq, hvc'', hsub'', hprod3, h2le3, hmem3⟩ :=
                  ihploop [r] pre.dropLast 1 c' l3 c3o hvc'
                    (by intro x hx; simp at hx; omega)
                    (by rw [hdl]; intro x hx; exact (hli_pr x hx).two_le)
                    (by
                      rw [hdl]
                      intro x hx
                      obtain ⟨e, he, hen⟩ := hmem1 x (by rw [hdl]; exact hx)
                        (hli_pr x hx) (hbd1 x (by rw [hdl]; exact hx))
                      exact ⟨e, hsub' e he, hen⟩) hpl
                have hinj : DriverAns.factors (sort_unstable l3) c3o =
                    DriverAns.factors l copt := by injection h
                injection hinj with h1 h2
                subst h1
                refine ⟨c'', h2 ▸ hc''eq, hvc'',
                  fun x hx => hsub'' x (hsub' x (hsub1 x hx)),
                  ?_, sort_unstable_sorted l3, ?_, ?_⟩
                · rw [(sort_unstable_perm l3).prod_eq, hprod3, hdl]
                  rw [hpre_eq] at hprod
                  rw [← hprod]
                  simp [List.prod_append, Nat.mul_comm]
                · intro x hx
                  exact h2le3 x ((sort_unstable_perm l3).mem_iff.mp hx)
                · intro x hx
                  exact hmem3 x ((sort_unstable_perm l3).mem_iff.mp hx)
              · simp [hpl] at h
              · simp [hpl] at h
            · -- decision true: r certified prime, return pre
              simp only [hcl] at h
              have hinj : DriverAns.factors pre (some c') = DriverAns.factors l copt := by
                injection h
              injection hinj with h1 h2
              subst h1
              refine ⟨c', h2.symm, hvc', fun x hx => hsub' x (hsub1 x hx), hprod, hsort,
                ?_, ?_⟩
              · intro x hx
                rw [hpre_eq] at hx
                rcases List.mem_append.mp hx with hx' | hx'
                · exact (hli_pr x hx').two_le
                · have : x = r := by simpa using hx'
                  omega
              · intro x hx
                rw [hpre_eq] at hx
                rcases List.mem_append.mp hx with hx' | hx'
                · obtain ⟨e, he, hen⟩ := hmem1 x (by rw [hdl]; exact hx')
                    (hli_pr x hx') (hbd1 x (by rw [hdl]; exact hx'))
                  exact ⟨e, hsub' e he, hen⟩
                · have hxr : x = r := by simpa using hx'
                  subst hxr
                  exact hb2 rfl
          · simp [hcl] at h
    · -- u128 certified_prime_check
      intro n c0 b copt hvc h
      rw [driver128] at h
      simp only [driver128_step] at h
      by_cases heven : n % 2 = 0
      · by_cases hn2 : n = 2
        · subst hn2
          have hct : check_two 2 (some c0) =
              (some true, some (cert_push c0 sentinel_element)) := by
            simp [check_two]
          simp only [hct] at h
          have hinj : DriverAns.decision true (some (cert_push c0 sentinel_element)) =
              DriverAns.decision b copt := by injection h
          injection hinj with hb hcopt
          have hgood : good_element (cert_push c0 sentinel_element) sentinel_element :=
            ⟨by decide, fun _ => rfl, fun hlt => absurd hlt (by decide)⟩
          exact ⟨cert_push c0 sentinel_element, hcopt.symm,
            valid_cert_push c0 sentinel_element hvc hgood,
            fun x hx => cert_push_mem_of_mem c0 sentinel_element x hx,
            fun _ => cert_push_has c0 sentinel_element,
            fun _ _ => hb.symm⟩
        · have hct : check_two n (some c0) = (some false, some c0) := by
            simp [check_two, heven, hn2]
          simp only [hct] at h
          have hinj : DriverAns.decision false (some c0) =
              DriverAns.decision b copt := by injection h
          injection hinj with hb hcopt
          refine ⟨c0, hcopt.symm, hvc, fun x hx => hx, fun hbt => ?_, fun hpn _ => ?_⟩
          · rw [← hb] at hbt; exact absurd hbt (by simp)
          · exact absurd ((Nat.Prime.even_iff hpn).mp (Nat.even_iff.mpr heven)) hn2
      · have hct : check_two n (some c0) = (none, some c0) := by
          simp [check_two, heven]
        simp only [hct] at h
        by_cases hsm : n < u64_size
        · rw [if_pos hsm] at h
          obtain ⟨c', hc'eq, hvc', hsub', hb', hpr'⟩ :=
            (driver_invariant fuel).2.1 n c0 b copt hvc h
          exact ⟨c', hc'eq, hvc', hsub', hb', fun hpn _ => hpr' hpn⟩
        · rw [if_neg hsm] at h
          have hn3 : 2 < n := by omega
          by_cases hmr : mr_prefilter n pre_base_range = true
          · rw [if_neg (not_not_intro hmr)] at h
            rcases hcf : driver128 fuel (.cf (n - 1) (some c0)) with e2 | a2
            · simp [hcf] at h
            rcases a2 with ⟨l2, c2o⟩ | ⟨b2, c2o⟩ | w2
            · simp only [hcf] at h
              obtain ⟨c', hc'eq, hvc1, hsub1, hprodl, -, h2lel, hmeml⟩ :=
                ihcf (n - 1) c0 l2 c2o (by omega) hvc hcf
              subst hc'eq
              have hfacts : ∀ p ∈ rust_dedup l2, 2 ≤ p ∧ p < n ∧ ∃ e ∈ c', e.n = p := by
                intro p hp
                have hpl : p ∈ l2 := (rust_dedup_mem l2 p).mp hp
                have hdvd : p ∣ l2.prod := List.dvd_prod hpl
                rw [hprodl] at hdvd
                have := Nat.le_of_dvd (by omega) hdvd
                exact ⟨h2lel p hpl, by omega, hmeml p hpl⟩
              have hstrip : strip_list (rust_dedup l2) (n - 1) = 1 := by
                refine strip_list_eq_one (rust_dedup l2) (n - 1) (by omega) ?_ ?_
                · intro p hp
                  obtain ⟨e, he, hen⟩ := hmeml p ((rust_dedup_mem l2 p).mp hp)
                  exact hen ▸ valid_cert_prime c' hvc1 e he
                · intro q hq hqdvd
                  rw [← hprodl] at hqdvd
                  obtain ⟨a, ha, hqa⟩ := (hq.prime.dvd_prod_iff).mp hqdvd
                  exact ⟨a, (rust_dedup_mem l2 a).mpr ha, hqa⟩
              rcases hscan : delayed_lucas_scan n (rust_dedup l2) (some c') pre_base_range
                with ⟨ob, c2⟩
              obtain ⟨cc, hcceq, hvcc, hsubcc, hobt⟩ :=
                delayed_lucas_scan_inv pre_base_range n (rust_dedup l2) c' ob c2 hvc1
                  hn3 hfacts hstrip hscan
              subst hcceq
              rcases ob with _ | bb
              · simp only [hscan] at h
                obtain ⟨c'', hc''eq, hvc'', hsub'', hb''⟩ :=
                  ihmll n 21 (rust_dedup l2) cc b copt hvcc hn3
                    (by
                      intro p hp
                      obtain ⟨hp2, hplt, e, he, hen⟩ := hfacts p hp
                      exact ⟨hp2, hplt, e, hsubcc e he, hen⟩)
                    hstrip h
                exact ⟨c'', hc''eq, hvc'',
                  fun x hx => hsub'' x (hsubcc x (hsub1 x hx)), hb'',
                  fun _ hsm' => absurd hsm' hsm⟩
              · simp only [hscan] at h
                have hinj : DriverAns.decision bb (some cc) =
                    DriverAns.decision b copt := by injection h
                injection hinj with hb hcopt
                subst hb
                exact ⟨cc, hcopt.symm, hvcc, fun x hx => hsubcc x (hsub1 x hx),
                  fun hbt => hobt (by rw [hbt]),
                  fun _ hsm' => absurd hsm' hsm⟩
            · simp [hcf] at h
            · simp [hcf] at h
          · rw [if_pos (by simpa using hmr)] at h
            have hinj : DriverAns.decision false (some c0) =
                DriverAns.decision b copt := by injection h
            injection hinj with hb hcopt
            refine ⟨c0, hcopt.symm, hvc, fun x hx => hx, fun hbt => ?_, fun _ hsm' => ?_⟩
            · rw [← hb] at hbt; exact absurd hbt (by simp)
            · exact absurd hsm' hsm
    · -- u128 pollard loop
      intro stack primes inc c0 l copt hvc hst hpr hprm h
      rw [driver128] at h
      simp only [driver128_step] at h
      rcases hgl : stack.getLast? with _ | cur
      · simp only [hgl] at h
        have hnil : stack = [] := by rwa [List.getLast?_eq_none_iff] at hgl
        have hinj : DriverAns.factors primes (some c0) = DriverAns.factors l copt := by
          injection h
        injection hinj with h1 h2
        subst h1
        exact ⟨c0, h2.symm, hvc, fun x hx => hx, by rw [hnil]; simp, hpr, hprm⟩
      have hcur_mem : cur ∈ stack := by
        rw [list_decomp_getLast stack cur hgl]; simp
      have hcur2 : 2 ≤ cur := hst cur hcur_mem
      rcases hrho : pollard_rho fuel cur 2 inc with e2 | f?
      · simp [hgl, hrho] at h
      rcases f? with _ | f
      · simp only [hgl, hrho] at h
        exact ihploop stack primes (inc + 1) c0 l copt hvc hst hpr hprm h
      simp only [hgl, hrho] at h
      obtain ⟨hdvd, hne, hne1⟩ := pollard_rho_facts fuel cur 2 inc f (by omega) hrho
      have hf2 : 2 ≤ f := by
        have hf0 : f ≠ 0 := by
          rintro rfl
          have := Nat.eq_zero_of_zero_dvd hdvd
          omega
        omega
      have hother : f * (cur / f) = cur := Nat.mul_div_cancel' hdvd
      obtain ⟨o, hoeq⟩ : ∃ o, cur / f = o := ⟨_, rfl⟩
      rw [hoeq] at hother h
      have ho2 : 2 ≤ o := by
        have hz : o ≠ 0 := by
          rintro rfl; rw [Nat.mul_zero] at hother; omega
        have ho1 : o ≠ 1 := by
          rintro rfl; rw [Nat.mul_one] at hother; exact hne hother
        omega
      rcases hcpf : driver128 fuel (.cpc f (some c0)) with e3 | a3
      · simp [hcpf] at h
      rcases a3 with ⟨l3, c3o⟩ | ⟨bf, c3o⟩ | w3
      · simp [hcpf] at h
      swap
      · simp [hcpf] at h
      simp only [hcpf] at h
      obtain ⟨c1, hc1eq, hvc1, hsub1, hbf_mem, hbf_pr⟩ := ihcpc f c0 bf c3o hvc hcpf
      subst hc1eq
      rcases hcpo : driver128 fuel (.cpc o (some c1)) with e4 | a4
      · simp [hcpo] at h
      rcases a4 with ⟨l4, c4o⟩ | ⟨bo, c4o⟩ | w4
      · simp [hcpo] at h
      swap
      · simp [hcpo] at h
      simp only [hcpo] at h
      obtain ⟨c2, hc2eq, hvc2, hsub2, hbo_mem, hbo_pr⟩ := ihcpc o c1 bo c4o hvc1 hcpo
      subst hc2eq
      have hside1 : ∀ x ∈ (if bo then
            (if bf then stack.dropLast else stack.dropLast ++ [f])
          else (if bf then stack.dropLast else stack.dropLast ++ [f]) ++ [o]), 2 ≤ x := by
        intro x hx
        have hx' : x ∈ stack.dropLast ∨ x = f ∨ x = o := by
          rcases bo <;> rcases bf <;> simp at hx <;> tauto
        rcases hx' with hx' | rfl | rfl
        · exact hst x (List.mem_of_mem_dropLast hx')
        · exact hf2
        · exact ho2
      have hside2 : ∀ x ∈ (if bo then
            (if bf then primes ++ [f] else primes) ++ [o]
          else (if bf then primes ++ [f] else primes)), 2 ≤ x := by
        intro x hx
        have hx' : x ∈ primes ∨ x = f ∨ x = o := by
          rcases bo <;> rcases bf <;> simp at hx <;> tauto
        rcases hx' with hx' | rfl | rfl
        · exact hpr x hx'
        · exact hf2
        · exact ho2
      have hside3 : ∀ x ∈ (if bo then
            (if bf then primes ++ [f] else primes) ++ [o]
          else (if bf then primes ++ [f] else primes)), ∃ e ∈ c2, e.n = x := by
        intro x hx
        have hx' : x ∈ primes ∨ (x = f ∧ bf = true) ∨ (x = o ∧ bo = true) := by
          rcases bo <;> rcases bf <;> simp at hx <;> tauto
        rcases hx' with hx' | ⟨rfl, hbf⟩ | ⟨rfl, hbo⟩
        · obtain ⟨e, he, hen⟩ := hprm x hx'
          exact ⟨e, hsub2 e (hsub1 e he), hen⟩
        · obtain ⟨e, he, hen⟩ := hbf_mem hbf
          exact ⟨e, hsub2 e he, hen⟩
        · obtain ⟨e, he, hen⟩ := hbo_mem hbo
          exact ⟨e, he, hen⟩
      obtain ⟨c'', hc''eq, hvc'', hsub'', hprod'', h2le'', hmem''⟩ :=
        ihploop _ _ inc c2 l copt hvc2 hside1 hside2 hside3 h
      have hSdecomp : stack = stack.dropLast ++ [cur] := list_decomp_getLast stack cur hgl
      refine ⟨c'', hc''eq, hvc'', fun x hx => hsub'' x (hsub2 x (hsub1 x hx)), ?_,
        h2le'', hmem''⟩
      rw [hprod'']
      conv_rhs => rw [hSdecomp]
      rcases bo <;> rcases bf <;>
        simp only [Bool.false_eq_true, eq_self_iff_true, if_true, if_false,
          List.prod_append, List.prod_cons, List.prod_nil] <;>
        rw [← hother] <;> ring
    · -- miller_lucas_loop
      intro n base divisors c0 b copt hvc h2 hf hstrip h
      rw [driver128] at h
      simp only [driver128_step] at h
      rcases hmr : miller_rabin n base with _ | _
      · simp only [hmr] at h
        have hinj : DriverAns.decision false (some c0) = DriverAns.decision b copt := by
          injection h
        injection hinj with hb hcopt
        exact ⟨c0, hcopt.symm, hvc, fun x hx => hx,
          fun hbt => absurd (hb.trans hbt) (by simp)⟩
      · rcases hlt : lucas_primality_test n divisors base with _ | _ | _
        · simp only [hmr, hlt] at h
          have hinj : DriverAns.decision true
              (some (cert_push c0 ⟨n, base, divisors⟩)) =
              DriverAns.decision b copt := by injection h
          injection hinj with hb hcopt
          obtain ⟨hvp, hsubp, hhas⟩ := good_push c0 n base divisors hvc h2 hf hstrip hlt
          exact ⟨cert_push c0 ⟨n, base, divisors⟩, hcopt.symm, hvp, hsubp, fun _ => hhas⟩
        · simp only [hmr, hlt] at h
          have hinj : DriverAns.decision false (some c0) = DriverAns.decision b copt := by
            injection h
          injection hinj with hb hcopt
          exact ⟨c0, hcopt.symm, hvc, fun x hx => hx,
            fun hbt => absurd (hb.trans hbt) (by simp)⟩
        · simp only [hmr, hlt] at h
          exact ihmll n (base + 1) divisors c0 b copt hvc h2 hf hstrip h

/-- C2 (amended): the certificate invariant holds with the `n = 2`
element exempted from the Lucas conditions (it is exactly the sentinel
`{n:2, base:1, unique_prime_divisors:[1]}`, whose listed divisor `1`
*fails* the `base^((n-1)/p) ≢ 1 (mod n)` condition).  With that
correction, every certificate returned by `generate_lucas_certificate`
— at the `u64` width and at the wide width (`u128`/bignum: `check_two`,
`delayed_lucas` and `miller_lucas_loop` are their shared
certificate-push sites) — and the certificate threaded through
`certified_factor` / `certified_prime_check` at either width when the
caller supplies one satisfying the invariant, satisfies it: elements
with `n > 2` carry a genuine Lucas witness, every listed prime divisor
occurs as an earlier (smaller-`n`) element, and repeated exact division
of `n - 1` by the listed divisors reaches 1. -/
theorem claim_C2_amended :
    (∀ fuel n c, generate_lucas_certificate fuel n = .ok (some c) →
      cert_invariants c) ∧
    (∀ fuel n c0 l copt, 2 ≤ n → valid_cert c0 →
      certified_factor fuel n (some c0) = .ok (l, copt) →
      ∀ c, copt = some c → cert_invariants c) ∧
    (∀ fuel n c0 b copt, valid_cert c0 →
      certified_prime_check fuel n (some c0) = .ok (b, copt) →
      ∀ c, copt = some c → cert_invariants c) ∧
    (∀ fuel n c, generate_lucas_certificate_u128 fuel n = .ok (some c) →
      cert_invariants c) ∧
    (∀ fuel n c0 l copt, 2 ≤ n → valid_cert c0 →
      certified_factor_u128 fuel n (some c0) = .ok (l, copt) →
      ∀ c, copt = some c → cert_invariants c) ∧
    (∀ fuel n c0 b copt, valid_cert c0 →
      certified_prime_check_u128 fuel n (some c0) = .ok (b, copt) →
      ∀ c, copt = some c → cert_invariants c) := by
  refine ⟨?_, ?_, ?_, ?_, ?_, ?_⟩
  · intro fuel n c h
    unfold generate_lucas_certificate at h
    rcases hc : certified_prime_check fuel n (some []) with e | ⟨b, copt⟩
    · simp [hc] at h
    rcases b with _ | _
    · simp [hc] at h
    rcases copt with _ | c'
    · simp [hc] at h
    simp only [hc] at h
    have hcc : c' = c := by
      injection h with h1
      injection h1
    subst hcc
    unfold certified_prime_check at hc
    rcases hd : driver fuel (.cpc n (some [])) with e2 | a2
    · simp [hd] at hc
    rcases a2 with ⟨l2, c2o⟩ | ⟨b2, c2o⟩ | w2
    · simp [hd] at hc
    · simp only [hd] at hc
      have hb2 : c2o = some c' := by
        have hinj : (b2, c2o) = (true, some c') := by injection hc
        exact congrArg Prod.snd hinj
      obtain ⟨c'', hc''eq, hvc'', -⟩ :=
        (driver_invariant fuel).2.1 n [] b2 c2o valid_cert_nil hd
      rw [hb2] at hc''eq
      have : c' = c'' := by injection hc''eq
      subst this
      exact valid_cert_invariants c' hvc''
    · simp [hd] at hc
  · intro fuel n c0 l copt hn2 hvc h c hcopt
    subst hcopt
    unfold certified_factor at h
    rcases hd : driver fuel (.cf n (some c0)) with e2 | a2
    · simp [hd] at h
    rcases a2 with ⟨l2, c2o⟩ | ⟨b2, c2o⟩ | w2
    · simp only [hd] at h
      have hinj : (l2, c2o) = (l, some c) := by injection h
      have hl2 : c2o = some c := congrArg Prod.snd hinj
      obtain ⟨c'', hc''eq, hvc'', -⟩ :=
        (driver_invariant fuel).1 n c0 l2 c2o hn2 hvc hd
      rw [hl2] at hc''eq
      have : c = c'' := by injection hc''eq
      subst this
      exact valid_cert_invariants c hvc''
    · simp [hd] at h
    · simp [hd] at h
  · intro fuel n c0 b copt hvc h c hcopt
    subst hcopt
    unfold certified_prime_check at h
    rcases hd : driver fuel (.cpc n (some c0)) with e2 | a2
    · simp [hd] at h
    rcases a2 with ⟨l2, c2o⟩ | ⟨b2, c2o⟩ | w2
    · simp [hd] at h
    · simp only [hd] at h
      have hinj : (b2, c2o) = (b, some c) := by injection h
      have hl2 : c2o = some c := congrArg Prod.snd hinj
      obtain ⟨c'', hc''eq, hvc'', -⟩ :=
        (driver_invariant fuel).2.1 n c0 b2 c2o hvc hd
      rw [hl2] at hc''eq
      have : c = c'' := by injection hc''eq
      subst this
      exact valid_cert_invariants c hvc''
    · simp [hd] at h
  · intro fuel n c h
    unfold generate_lucas_certificate_u128 at h
    rcases hc : certified_prime_check_u128 fuel n (some []) with e | ⟨b, copt⟩
    · simp [hc] at h
    rcases b with _ | _
    · simp [hc] at h
    rcases copt with _ | c'
    · simp [hc] at h
    simp only [hc] at h
    have hcc : c' = c := by
      injection h with h1
      injection h1
    subst hcc
    unfold certified_prime_check_u128 at hc
    rcases hd : driver128 fuel (.cpc n (some [])) with e2 | a2
    · simp [hd] at hc
    rcases a2 with ⟨l2, c2o⟩ | ⟨b2, c2o⟩ | w2
    · simp [hd] at hc
    · simp only [hd] at hc
      have hb2 : c2o = some c' := by
        have hinj : (b2, c2o) = (true, some c') := by injection hc
        exact congrArg Prod.snd hinj
      obtain ⟨c'', hc''eq, hvc'', -⟩ :=
        (driver128_invariant fuel).2.1 n [] b2 c2o valid_cert_nil hd
      rw [hb2] at hc''eq
      have : c' = c'' := by injection hc''eq
      subst this
      exact valid_cert_invariants c' hvc''
    · simp [hd] at hc
  · intro fuel n c0 l copt hn2 hvc h c hcopt
    subst hcopt
    unfold certified_factor_u128 at h
    rcases hd : driver128 fuel (.cf n (some c0)) with e2 | a2
    · simp [hd] at h
    rcases a2 with ⟨l2, c2o⟩ | ⟨b2, c2o⟩ | w2
    · simp only [hd] at h
      have hinj : (l2, c2o) = (l, some c) := by injection h
      have hl2 : c2o = some c := congrArg Prod.snd hinj
      obtain ⟨c'', hc''eq, hvc'', -⟩ :=
        (driver128_invariant fuel).1 n c0 l2 c2o hn2 hvc hd
      rw [hl2] at hc''eq
      have : c = c'' := by injection hc''eq
      subst this
      exact valid_cert_invariants c hvc''
    · simp [hd] at h
    · simp [hd] at h
  · intro fuel n c0 b copt hvc h c hcopt
    subst hcopt
    unfold certified_prime_check_u128 at h
    rcases hd : driver128 fuel (.cpc n (some c0)) with e2 | a2
    · simp [hd] at h
    rcases a2 with ⟨l2, c2o⟩ | ⟨b2, c2o⟩ | w2
    · simp [hd] at h
    · simp only [hd] at h
      have hinj : (b2, c2o) = (b, some c) := by injection h
      have hl2 : c2o = some c := congrArg Prod.snd hinj
      obtain ⟨c'', hc''eq, hvc'', -⟩ :=
        (driver128_invariant fuel).2.1 n c0 b2 c2o hvc hd
      rw [hl2] at hc''eq
      have : c = c'' := by injection hc''eq
      subst this
      exact valid_cert_invariants c hvc''
    · simp [hd] at h

/-- Witness for C2 at `n = 7`, exercised at both widths: the `u64`
`generate_lucas_certificate` and the downshifting `u128` one return the
same three-element certificate (sentinel, 3, 7), and it satisfies the
amended invariant. -/
theorem claim_C2_witness :
    generate_lucas_certificate 20 7 =
      .ok (some [⟨2, 1, [1]⟩, ⟨3, 2, [2]⟩, ⟨7, 3, [2, 3]⟩]) ∧
    cert_invariants [⟨2, 1, [1]⟩, ⟨3, 2, [2]⟩, ⟨7, 3, [2, 3]⟩] ∧
    generate_lucas_certificate_u128 21 7 =
      .ok (some [⟨2, 1, [1]⟩, ⟨3, 2, [2]⟩, ⟨7, 3, [2, 3]⟩]) ∧
    cert_invariants [⟨2, 1, [1]⟩, ⟨3, 2, [2]⟩, ⟨7, 3, [2, 3]⟩] :=
  ⟨by rfl, claim_C2_amended.1 20 7 _ (by rfl),
   by rfl, claim_C2_amended.2.2.2.1 21 7 _ (by rfl)⟩
